import Mathlib

/-!
Verification of the category-matching scripts of this repository.

The repository aligns two point-of-interest category taxonomies by fuzzy
string matching.  This file gives a shallow embedding of the relevant
Python functions over `List Char` (text), `ℚ` (scores) and plain lists,
and proves or refutes the specified properties.

Modelling conventions:
* text is `List Char`; a Python `str` literal `"s"` is `"s".data`;
* Python string methods (`lower`, `strip`, `split`, `replace`) and the
  regular-expression substitutions used by the scripts are modelled
  character-faithfully for ASCII text (the category labels that the
  scripts process are ASCII); Unicode-only behaviour (e.g. `str.lower`
  on non-ASCII letters) is out of scope and noted where relevant;
* scores are `ℚ` (Python floats hold exact values on these inputs only
  up to rounding; all claims are about comparisons and exact constants
  that are unaffected on the inputs considered);
* `difflib.SequenceMatcher` (stdlib) is embedded fully below, without
  the autojunk heuristic, which is inert for strings shorter than 200
  characters such as category labels.
-/

/-! ## Character classes (ASCII models of Python predicates) -/

/-- Python whitespace for `str.split()` / regex `\s` (ASCII part). -/
def isWsC (c : Char) : Bool :=
  c = ' ' || c = '\t' || c = '\n' || c = '\r' || c = '\x0b' || c = '\x0c'

/-- `'0' ≤ c ≤ '9'`. -/
def isDigitC (c : Char) : Bool := decide ('0' ≤ c) && decide (c ≤ '9')

/-- `'a' ≤ c ≤ 'z'`. -/
def isLowerC (c : Char) : Bool := decide ('a' ≤ c) && decide (c ≤ 'z')

/-- `'A' ≤ c ≤ 'Z'`. -/
def isUpperC (c : Char) : Bool := decide ('A' ≤ c) && decide (c ≤ 'Z')

/-- ASCII letter. -/
def isAlphaC (c : Char) : Bool := isUpperC c || isLowerC c

/-- Python regex `\w` (ASCII): letters, digits and underscore. -/
def isWordC (c : Char) : Bool := isAlphaC c || isDigitC c || c = '_'

/-- Lower-case ASCII letter or digit (`[a-z0-9]`). -/
def isAz09 (c : Char) : Bool := isLowerC c || isDigitC c

/-- Python `str.lower` on one character (ASCII range). -/
def pyLower (c : Char) : Char := if isUpperC c then Char.ofNat (c.toNat + 32) else c

/-- Python `str.upper` on one character (ASCII range). -/
def pyUpper (c : Char) : Char := if isLowerC c then Char.ofNat (c.toNat - 32) else c

/-! ## Splitting text into runs, words, and joining -/

/-- Worker for `splitRuns`: `acc` is the current (reversed) run of
characters satisfying `p`. -/
def splitRunsGo (p : Char → Bool) : List Char → List Char → List (List Char)
  | [], acc => if acc = [] then [] else [acc.reverse]
  | c :: cs, acc =>
    if p c then splitRunsGo p cs (c :: acc)
    else if acc = [] then splitRunsGo p cs []
    else acc.reverse :: splitRunsGo p cs []

/-- The maximal nonempty runs of characters satisfying `p`, in order.
`splitRuns (fun c => !isWsC c)` is Python's `str.split()`. -/
def splitRuns (p : Char → Bool) (s : List Char) : List (List Char) :=
  splitRunsGo p s []

/-- Python `str.split()` (split on whitespace runs, dropping empties). -/
def pyWords (s : List Char) : List (List Char) := splitRuns (fun c => !isWsC c) s

/-- Python `' '.join(ws)`. -/
def joinSpace : List (List Char) → List Char
  | [] => []
  | [w] => w
  | w :: ws => w ++ ' ' :: joinSpace ws

/-- `' '.join(s.split())`: collapse whitespace runs and trim. -/
def collapseWs (s : List Char) : List Char := joinSpace (pyWords s)

/-- Python `str.strip()`. -/
def stripWs (s : List Char) : List Char :=
  ((s.dropWhile isWsC).reverse.dropWhile isWsC).reverse

/-! ## Replacement and splitting on a separator

These are fuel-indexed so that they reduce in the kernel; the public
wrappers pass `s.length` fuel, which is always sufficient because every
step consumes at least one character. -/

/-- Worker for `replaceAll`. -/
def replaceAllF (pat repl : List Char) : Nat → List Char → List Char
  | _, [] => []
  | 0, s => s
  | fuel+1, c :: cs =>
    if !pat.isEmpty && pat.isPrefixOf (c :: cs) then
      repl ++ replaceAllF pat repl fuel ((c :: cs).drop pat.length)
    else
      c :: replaceAllF pat repl fuel cs

/-- Python `s.replace(pat, repl)` for a nonempty `pat`: replace all
non-overlapping occurrences, scanning left to right. -/
def replaceAll (pat repl s : List Char) : List Char := replaceAllF pat repl s.length s

/-- Worker for `splitSeq`: `acc` is the current (reversed) field. -/
def splitSeqF (sep : List Char) : Nat → List Char → List Char → List (List Char)
  | _, [], acc => [acc.reverse]
  | 0, s, acc => [acc.reverse ++ s]
  | fuel+1, c :: cs, acc =>
    if !sep.isEmpty && sep.isPrefixOf (c :: cs) then
      acc.reverse :: splitSeqF sep fuel ((c :: cs).drop sep.length) []
    else
      splitSeqF sep fuel cs (c :: acc)

/-- Python `s.split(sep)` for a nonempty separator. -/
def splitSeq (sep s : List Char) : List (List Char) := splitSeqF sep s.length s []

/-- `True` iff the character right after a match of `pat` at the head of
`s` is absent or not a word character (the trailing `\b` test). -/
def wordBoundAfter (pat : List Char) (s : List Char) : Bool :=
  match s.drop pat.length with
  | [] => true
  | d :: _ => !isWordC d

/-- Worker for `wordReplace`; `prevW` records whether the character just
before the current position is a word character (the leading `\b` test). -/
def wordReplaceF (pat repl : List Char) : Nat → Bool → List Char → List Char
  | _, _, [] => []
  | 0, _, s => s
  | fuel+1, prevW, c :: cs =>
    if !pat.isEmpty && pat.isPrefixOf (c :: cs) && !prevW
        && wordBoundAfter pat (c :: cs) then
      repl ++ wordReplaceF pat repl fuel
        (match pat.getLast? with | some d => isWordC d | none => prevW)
        ((c :: cs).drop pat.length)
    else
      c :: wordReplaceF pat repl fuel (isWordC c) cs

/-- Python `re.sub(r"\b" + pat + r"\b", repl, s)` for a pattern made of
word characters (as in the spelling-canonicalisation table). -/
def wordReplace (pat repl s : List Char) : List Char :=
  wordReplaceF pat repl s.length false s

/-! ## difflib.SequenceMatcher

Faithful embedding of `SequenceMatcher(None, a, b).ratio()` from the
Python standard library, with the autojunk heuristic omitted (it does
nothing for `len(b) < 200`, which covers every string the scripts
compare).  `find_longest_match` keeps, among the maximal matching
blocks, the first one in scan order (lowest end row, then lowest `j`),
exactly as the `j2len` dictionary algorithm does. -/

/-- The positions of character `c` in `b`, ascending (difflib's `b2j`). -/
def b2jList (b : List Char) (c : Char) : List Nat :=
  (List.range b.length).filter (fun j => decide (b.get? j = some c))

/-- One inner step of `find_longest_match`: process the match positions
`js` of row `i`, reading the previous row's lengths from `j2prev` and
building the current row's lengths. -/
def flmInner (j2prev : Nat → Nat) (i : Nat) :
    List Nat → (Nat × Nat × Nat) → (Nat → Nat) → ((Nat × Nat × Nat) × (Nat → Nat))
  | [], best, cur => (best, cur)
  | j :: js, best, cur =>
    let k := (if j = 0 then 0 else j2prev (j - 1)) + 1
    let best2 := if best.2.2 < k then (i + 1 - k, j + 1 - k, k) else best
    flmInner j2prev i js best2 (fun x => if x = j then k else cur x)

/-- The row loop of `find_longest_match`. -/
def flmRows (a b : List Char) (blo bhi : Nat) :
    List Nat → (Nat × Nat × Nat) → (Nat → Nat) → (Nat × Nat × Nat)
  | [], best, _ => best
  | i :: is, best, j2prev =>
    let js := (b2jList b (a.getD i ' ')).filter
      (fun j => decide (blo ≤ j) && decide (j < bhi))
    let res := flmInner j2prev i js best (fun _ => 0)
    flmRows a b blo bhi is res.1 res.2

/-- difflib `find_longest_match(alo, ahi, blo, bhi)` (no junk). -/
def findLongestMatch (a b : List Char) (alo ahi blo bhi : Nat) : Nat × Nat × Nat :=
  flmRows a b blo bhi (List.range' alo (ahi - alo)) (alo, blo, 0) (fun _ => 0)

/-- Total size of the matching blocks found by difflib's recursive
decomposition of `a[alo:ahi]` against `b[blo:bhi]`.  Fuel-indexed; the
interval measure shrinks at every recursive call, so
`(ahi - alo) + (bhi - blo) + 1` fuel always suffices. -/
def matchSum (a b : List Char) : Nat → Nat → Nat → Nat → Nat → Nat
  | 0, _, _, _, _ => 0
  | fuel+1, alo, ahi, blo, bhi =>
    let m := findLongestMatch a b alo ahi blo bhi
    if m.2.2 = 0 then 0
    else
      m.2.2 + matchSum a b fuel alo m.1 blo m.2.1
        + matchSum a b fuel (m.1 + m.2.2) ahi (m.2.1 + m.2.2) bhi

/-- `sum(block.size for block in get_matching_blocks())`. -/
def seqMatches (a b : List Char) : Nat :=
  matchSum a b (a.length + b.length + 1) 0 a.length 0 b.length

/-- `SequenceMatcher(None, a, b).ratio()`: `2*M / T`, or `1.0` when both
strings are empty. -/
def seqRatioQ (a b : List Char) : ℚ :=
  if a.length + b.length = 0 then 1
  else 2 * (seqMatches a b : ℚ) / ((a.length : ℚ) + (b.length : ℚ))

/-! ### Bounds on the matcher

The matching blocks returned by `findLongestMatch` lie inside the
queried rectangle, hence the total matched size is at most each side's
length and the ratio lies in `[0, 1]`. -/

/-- The candidate block `(i, j, size)` lies inside the rectangle
`[alo, ahi) × [blo, bhi)` unless it is the trivial empty block. -/
def BestOK (alo ahi blo bhi : Nat) (t : Nat × Nat × Nat) : Prop :=
  t.2.2 = 0 ∨ (alo ≤ t.1 ∧ t.1 + t.2.2 ≤ ahi ∧ blo ≤ t.2.1 ∧ t.2.1 + t.2.2 ≤ bhi)

/-- Invariant of a `j2len` row map: entries are bounded by the number of
processed rows, and a nonzero entry at `x` describes a block ending at
column `x` that starts at or after `blo` and ends before `bhi`. -/
def RowOK (blo bhi bound : Nat) (f : Nat → Nat) : Prop :=
  ∀ x, f x ≤ bound ∧ (f x ≠ 0 → blo + f x ≤ x + 1 ∧ x < bhi)

theorem flmInner_ok (j2prev : Nat → Nat) (i alo ahi blo bhi : Nat)
    (hi1 : alo ≤ i) (hi2 : i < ahi)
    (hprev : RowOK blo bhi (i - alo) j2prev) :
    ∀ (js : List Nat) (best : Nat × Nat × Nat) (cur : Nat → Nat),
      (∀ j ∈ js, blo ≤ j ∧ j < bhi) →
      BestOK alo ahi blo bhi best →
      RowOK blo bhi (i + 1 - alo) cur →
      BestOK alo ahi blo bhi (flmInner j2prev i js best cur).1 ∧
        RowOK blo bhi (i + 1 - alo) (flmInner j2prev i js best cur).2 := by
  intro js
  induction js with
  | nil =>
    intro best cur _ hb hc
    exact ⟨hb, hc⟩
  | cons j js ih =>
    intro best cur hjs hb hc
    have hj : blo ≤ j ∧ j < bhi := hjs j (by simp)
    have hjs2 : ∀ x ∈ js, blo ≤ x ∧ x < bhi := fun x hx => hjs x (by simp [hx])
    have hk1 : (if j = 0 then 0 else j2prev (j - 1)) + 1 ≤ i + 1 - alo := by
      rcases Decidable.em (j = 0) with h0 | h0
      · simp [h0]; omega
      · have := (hprev (j - 1)).1
        simp [h0]; omega
    have hk2 : blo + ((if j = 0 then 0 else j2prev (j - 1)) + 1) ≤ j + 1 := by
      rcases Decidable.em (j = 0) with h0 | h0
      · simp [h0]; omega
      · rcases Decidable.em (j2prev (j - 1) = 0) with hz | hz
        · simp [h0, hz]; omega
        · have := (hprev (j - 1)).2 hz
          simp [h0]; omega
    have hj1 := hj.1
    have hj2 := hj.2
    rw [flmInner]
    apply ih
    · exact hjs2
    · -- the updated best block is in the rectangle
      set k := (if j = 0 then 0 else j2prev (j - 1)) + 1 with hkdef
      rcases Decidable.em (best.2.2 < k) with hlt | hlt
      · simp only [if_pos hlt]
        right
        dsimp only
        refine ⟨by omega, by omega, by omega, by omega⟩
      · simpa [if_neg hlt] using hb
    · -- the updated row map stays well-formed
      intro x
      rcases Decidable.em (x = j) with hx | hx
      · subst hx
        constructor
        · simpa using hk1
        · intro _
          simp only [if_pos rfl]
          exact ⟨hk2, hj.2⟩
      · simpa [hx] using hc x

theorem flmRows_ok (a b : List Char) (alo ahi blo bhi : Nat) :
    ∀ (n i : Nat) (best : Nat × Nat × Nat) (j2prev : Nat → Nat),
      alo ≤ i → i + n ≤ ahi →
      BestOK alo ahi blo bhi best →
      RowOK blo bhi (i - alo) j2prev →
      BestOK alo ahi blo bhi (flmRows a b blo bhi (List.range' i n) best j2prev) := by
  intro n
  induction n with
  | zero =>
    intro i best j2prev _ _ hb _
    simpa [flmRows] using hb
  | succ n ih =>
    intro i best j2prev hi1 hi2 hb hprev
    rw [List.range'_succ, flmRows]
    have hjs : ∀ j ∈ (b2jList b (a.getD i ' ')).filter
        (fun j => decide (blo ≤ j) && decide (j < bhi)), blo ≤ j ∧ j < bhi := by
      intro j hj
      have := List.of_mem_filter hj
      simp at this
      exact this
    have h := flmInner_ok j2prev i alo ahi blo bhi hi1 (by omega) hprev
      ((b2jList b (a.getD i ' ')).filter (fun j => decide (blo ≤ j) && decide (j < bhi)))
      best (fun _ => 0) hjs hb
      (by intro x; exact ⟨Nat.zero_le _, by simp⟩)
    have := ih (i + 1) _ _ (by omega) (by omega) h.1 (by
      have hr := h.2
      have : i + 1 - alo = (i + 1) - alo := rfl
      exact hr)
    exact this

theorem findLongestMatch_ok (a b : List Char) (alo ahi blo bhi : Nat) :
    BestOK alo ahi blo bhi (findLongestMatch a b alo ahi blo bhi) := by
  rcases Nat.le_total alo ahi with h | h
  · apply flmRows_ok a b alo ahi blo bhi (ahi - alo) alo (alo, blo, 0) (fun _ => 0)
      (Nat.le_refl _) (by omega)
    · left; rfl
    · intro x
      exact ⟨by simp, by simp⟩
  · have h0 : ahi - alo = 0 := by omega
    rw [findLongestMatch, h0]
    left; rfl

theorem matchSum_le (a b : List Char) :
    ∀ (fuel alo ahi blo bhi : Nat),
      matchSum a b fuel alo ahi blo bhi ≤ ahi - alo ∧
        matchSum a b fuel alo ahi blo bhi ≤ bhi - blo := by
  intro fuel
  induction fuel with
  | zero => intro alo ahi blo bhi; simp [matchSum]
  | succ fuel ih =>
    intro alo ahi blo bhi
    rw [matchSum]
    rcases Decidable.em ((findLongestMatch a b alo ahi blo bhi).2.2 = 0) with h0 | h0
    · simp [h0]
    · simp only [if_neg h0]
      have hok := findLongestMatch_ok a b alo ahi blo bhi
      rcases hok with hk | ⟨h1, h2, h3, h4⟩
      · exact absurd hk h0
      · have ha := ih alo (findLongestMatch a b alo ahi blo bhi).1 blo
          (findLongestMatch a b alo ahi blo bhi).2.1
        have hb := ih ((findLongestMatch a b alo ahi blo bhi).1 +
            (findLongestMatch a b alo ahi blo bhi).2.2) ahi
          ((findLongestMatch a b alo ahi blo bhi).2.1 +
            (findLongestMatch a b alo ahi blo bhi).2.2) bhi
        constructor
        · omega
        · omega

theorem seqMatches_le_left (a b : List Char) : seqMatches a b ≤ a.length := by
  have := (matchSum_le a b (a.length + b.length + 1) 0 a.length 0 b.length).1
  simpa [seqMatches] using this

theorem seqMatches_le_right (a b : List Char) : seqMatches a b ≤ b.length := by
  have := (matchSum_le a b (a.length + b.length + 1) 0 a.length 0 b.length).2
  simpa [seqMatches] using this

theorem seqRatioQ_nonneg (a b : List Char) : 0 ≤ seqRatioQ a b := by
  rw [seqRatioQ]
  rcases Decidable.em (a.length + b.length = 0) with h | h
  · simp [h]
  · simp only [if_neg h]
    apply div_nonneg
    · positivity
    · have : 0 < a.length + b.length := Nat.pos_of_ne_zero h
      have : (0 : ℚ) < (a.length : ℚ) + (b.length : ℚ) := by
        exact_mod_cast this
      linarith

theorem seqRatioQ_le_one (a b : List Char) : seqRatioQ a b ≤ 1 := by
  rw [seqRatioQ]
  rcases Decidable.em (a.length + b.length = 0) with h | h
  · simp [h]
  · simp only [if_neg h]
    have hpos : (0 : ℚ) < (a.length : ℚ) + (b.length : ℚ) := by
      have : 0 < a.length + b.length := Nat.pos_of_ne_zero h
      exact_mod_cast this
    rw [div_le_one hpos]
    have h1 := seqMatches_le_left a b
    have h2 := seqMatches_le_right a b
    have h1q : (seqMatches a b : ℚ) ≤ (a.length : ℚ) := by exact_mod_cast h1
    have h2q : (seqMatches a b : ℚ) ≤ (b.length : ℚ) := by exact_mod_cast h2
    linarith

/-! ## map_categories.py -/

namespace MapCategories

/-- `normalize_text` from map_categories.py: lowercase, `'_' → ' '`,
collapse whitespace.  (`pd.isna` is false for every string, so the
leading NaN guard is the identity on text inputs.) -/
def normalize_text (text : List Char) : List Char :=
  collapseWs (replaceAll "_".data " ".data (text.map pyLower))

/-- The stop-word set of `extract_keywords`. -/
def stop_words : List (List Char) :=
  ["and".data, "or".data, "the".data, "a".data, "an".data, "in".data, "of".data,
    "for".data, "to".data, "with".data, "at".data, "by".data, "from".data]

/-- `extract_keywords`: the set of whitespace-separated words that are
not stop words and are longer than one character. -/
def extract_keywords (text : List Char) : Finset (List Char) :=
  ((pyWords text).filter
    (fun w => decide (w ∉ stop_words) && decide (1 < w.length))).toFinset

/-- The keyword-overlap component of `calculate_similarity`:
`len(om ∩ fsq) / len(om) * 100` when both keyword sets are nonempty,
else `0`.  Note the normalisation by the *first* argument's size. -/
def keyword_overlap (om_keywords fsq_keywords : Finset (List Char)) : ℚ :=
  if om_keywords ≠ ∅ ∧ fsq_keywords ≠ ∅ then
    ((om_keywords ∩ fsq_keywords).card : ℚ) / (om_keywords.card : ℚ) * 100
  else 0

/-- The keyword-overlap component as a function of the two raw labels,
exactly as computed inside `calculate_similarity`. -/
def keyword_overlap_of (om_category fsq_label : List Char) : ℚ :=
  keyword_overlap (extract_keywords (normalize_text om_category))
    (extract_keywords (normalize_text fsq_label))

/-- The containment bonus of `calculate_similarity`: `30` if the
normalised OM string is a substring of the normalised FSQ string, else
`15` if some OM keyword longer than three characters occurs in the FSQ
string, else `0`. -/
def containment_bonus (om_norm fsq_norm : List Char)
    (om_keywords : Finset (List Char)) : ℚ :=
  if om_norm <:+: fsq_norm then 30
  else if ∃ w ∈ om_keywords, 3 < w.length ∧ w <:+: fsq_norm then 15
  else 0

/-- The sequence-similarity component of `calculate_similarity`
(difflib ratio of the normalised strings, scaled to 0–100). -/
def direct_similarity_of (om_category fsq_label : List Char) : ℚ :=
  seqRatioQ (normalize_text om_category) (normalize_text fsq_label) * 100

/-- `calculate_similarity` from map_categories.py:
`direct*0.4 + keyword_overlap*0.4 + containment_bonus*0.2`. -/
def calculate_similarity (om_category fsq_label : List Char) : ℚ :=
  let om_norm := normalize_text om_category
  let fsq_norm := normalize_text fsq_label
  direct_similarity_of om_category fsq_label * (2/5)
    + keyword_overlap_of om_category fsq_label * (2/5)
    + containment_bonus om_norm fsq_norm (extract_keywords om_norm) * (1/5)

end MapCategories

/-! ## category_mapper.py : text normalisation and similarity -/

namespace CategoryMapper

/-- The replacement table of `normalize_text`, in insertion order. -/
def replacements : List (List Char × List Char) :=
  [("&".data, "and".data), ("+".data, "and".data), ("/".data, " ".data),
    ("-".data, " ".data), ("_".data, " ".data), ("  ".data, " ".data)]

/-- `normalize_text` from category_mapper.py on a string: lowercase,
apply the replacement table, delete remaining characters outside
`[\w\s]`, collapse whitespace. -/
def normalize_core (text : List Char) : List Char :=
  let t1 := text.map pyLower
  let t2 := replacements.foldl (fun t pr => replaceAll pr.1 pr.2 t) t1
  let t3 := t2.filter (fun c => isWordC c || isWsC c)
  collapseWs t3

/-- `normalize_text` including the `pd.isna` guard (`None ↦ ""`). -/
def normalize_text : Option (List Char) → List Char
  | none => []
  | some t => normalize_core t

/-- The word-overlap component of `calculate_similarity_score`:
intersection over union of the word sets of the normalised strings. -/
def word_similarity (norm1 norm2 : List Char) : ℚ :=
  let words1 := (pyWords norm1).toFinset
  let words2 := (pyWords norm2).toFinset
  if words1.card = 0 ∧ words2.card = 0 then 0
  else if 0 < (words1 ∪ words2).card then
    ((words1 ∩ words2).card : ℚ) / ((words1 ∪ words2).card : ℚ)
  else 0

/-- The substring-containment bonus of `calculate_similarity_score`. -/
def containment_bonus (norm1 norm2 : List Char) : ℚ :=
  if norm1 <:+: norm2 ∨ norm2 <:+: norm1 then 1/5 else 0

/-- `calculate_similarity_score` from category_mapper.py: `0.0` when an
input is empty; `1.0` on identical normalised strings; otherwise
`min(seq*0.4 + word*0.5 + containment, 1.0)`. -/
def calculate_similarity_score (text1 text2 : List Char) : ℚ :=
  if text1.isEmpty || text2.isEmpty then 0
  else
    let norm1 := normalize_core text1
    let norm2 := normalize_core text2
    if norm1 = norm2 then 1
    else
      min (seqRatioQ norm1 norm2 * (2/5) + word_similarity norm1 norm2 * (1/2)
        + containment_bonus norm1 norm2) 1

end CategoryMapper

/-! ## Shared bounds for the two similarity scorers -/

theorem keyword_overlap_nonneg (k1 k2 : Finset (List Char)) :
    0 ≤ MapCategories.keyword_overlap k1 k2 := by
  rw [MapCategories.keyword_overlap]
  split_ifs with h
  · have h1 : (0 : ℚ) ≤ ((k1 ∩ k2).card : ℚ) := by positivity
    have h2 : (0 : ℚ) ≤ (k1.card : ℚ) := by positivity
    positivity
  · exact le_refl 0

theorem keyword_overlap_le_100 (k1 k2 : Finset (List Char)) :
    MapCategories.keyword_overlap k1 k2 ≤ 100 := by
  rw [MapCategories.keyword_overlap]
  split_ifs with h
  · have hsub : (k1 ∩ k2).card ≤ k1.card :=
      Finset.card_le_card (Finset.inter_subset_left)
    have hpos : 0 < k1.card := Finset.card_pos.mpr (Finset.nonempty_iff_ne_empty.mpr h.1)
    have hq : ((k1 ∩ k2).card : ℚ) / (k1.card : ℚ) ≤ 1 := by
      rw [div_le_one (by exact_mod_cast hpos)]
      exact_mod_cast hsub
    calc ((k1 ∩ k2).card : ℚ) / (k1.card : ℚ) * 100 ≤ 1 * 100 := by
          apply mul_le_mul_of_nonneg_right hq; norm_num
      _ = 100 := by norm_num
  · norm_num

theorem mc_bonus_nonneg (n1 n2 : List Char) (k : Finset (List Char)) :
    0 ≤ MapCategories.containment_bonus n1 n2 k := by
  rw [MapCategories.containment_bonus]
  split_ifs <;> norm_num

theorem mc_bonus_le_30 (n1 n2 : List Char) (k : Finset (List Char)) :
    MapCategories.containment_bonus n1 n2 k ≤ 30 := by
  rw [MapCategories.containment_bonus]
  split_ifs <;> norm_num

theorem mc_direct_nonneg (a b : List Char) :
    0 ≤ MapCategories.direct_similarity_of a b := by
  rw [MapCategories.direct_similarity_of]
  have := seqRatioQ_nonneg (MapCategories.normalize_text a) (MapCategories.normalize_text b)
  linarith

theorem mc_direct_le_100 (a b : List Char) :
    MapCategories.direct_similarity_of a b ≤ 100 := by
  rw [MapCategories.direct_similarity_of]
  have := seqRatioQ_le_one (MapCategories.normalize_text a) (MapCategories.normalize_text b)
  linarith

theorem mc_score_bounds (a b : List Char) :
    0 ≤ MapCategories.calculate_similarity a b ∧
      MapCategories.calculate_similarity a b ≤ 100 := by
  rw [MapCategories.calculate_similarity]
  have d1 := mc_direct_nonneg a b
  have d2 := mc_direct_le_100 a b
  have k1 : 0 ≤ MapCategories.keyword_overlap_of a b := keyword_overlap_nonneg _ _
  have k2 : MapCategories.keyword_overlap_of a b ≤ 100 := keyword_overlap_le_100 _ _
  have b1 := mc_bonus_nonneg (MapCategories.normalize_text a)
    (MapCategories.normalize_text b)
    (MapCategories.extract_keywords (MapCategories.normalize_text a))
  have b2 := mc_bonus_le_30 (MapCategories.normalize_text a)
    (MapCategories.normalize_text b)
    (MapCategories.extract_keywords (MapCategories.normalize_text a))
  constructor
  · linarith
  · linarith

theorem cm_word_similarity_nonneg (n1 n2 : List Char) :
    0 ≤ CategoryMapper.word_similarity n1 n2 := by
  rw [CategoryMapper.word_similarity]
  split_ifs with h1 h2
  · exact le_refl 0
  · positivity
  · exact le_refl 0

theorem cm_bonus_nonneg (n1 n2 : List Char) :
    0 ≤ CategoryMapper.containment_bonus n1 n2 := by
  rw [CategoryMapper.containment_bonus]
  split_ifs <;> norm_num

theorem cm_score_bounds (a b : List Char) :
    0 ≤ CategoryMapper.calculate_similarity_score a b ∧
      CategoryMapper.calculate_similarity_score a b ≤ 1 := by
  rw [CategoryMapper.calculate_similarity_score]
  rcases Decidable.em ((a.isEmpty || b.isEmpty) = true) with h1 | h1
  · rw [if_pos h1]; norm_num
  · rw [if_neg h1]
    rcases Decidable.em (CategoryMapper.normalize_core a = CategoryMapper.normalize_core b)
      with he | he
    · rw [if_pos he]; norm_num
    · rw [if_neg he]
      constructor
      · apply le_min
        · have s1 := seqRatioQ_nonneg (CategoryMapper.normalize_core a)
            (CategoryMapper.normalize_core b)
          have s2 := cm_word_similarity_nonneg (CategoryMapper.normalize_core a)
            (CategoryMapper.normalize_core b)
          have s3 := cm_bonus_nonneg (CategoryMapper.normalize_core a)
            (CategoryMapper.normalize_core b)
          linarith
        · norm_num
      · exact min_le_right _ _

/-! ## Concrete evaluations shared by several results -/

/-- Normalisation collapses case and underscores: both spellings of
"coffee shop" normalise identically in map_categories.py. -/
theorem mc_norm_coffee1 :
    MapCategories.normalize_text "Coffee Shop".data = "coffee shop".data := by decide

theorem mc_norm_coffee2 :
    MapCategories.normalize_text "coffee_shop".data = "coffee shop".data := by decide

/-- The composite map_categories.py score of the exact-normalised pair:
`1.0*100*0.4 + 100*0.4 + 30*0.2 = 86`, not the maximum 100. -/
theorem mc_coffee_eval :
    MapCategories.calculate_similarity "Coffee Shop".data "coffee_shop".data = 86 := by
  have hd : MapCategories.direct_similarity_of "Coffee Shop".data "coffee_shop".data
      = 100 := by
    rw [MapCategories.direct_similarity_of, mc_norm_coffee1, mc_norm_coffee2]
    have hm : seqMatches "coffee shop".data "coffee shop".data = 11 := by decide
    rw [seqRatioQ, if_neg (by decide), hm]
    norm_num
  have hk : MapCategories.keyword_overlap_of "Coffee Shop".data "coffee_shop".data
      = 100 := by
    rw [MapCategories.keyword_overlap_of, mc_norm_coffee1, mc_norm_coffee2,
      MapCategories.keyword_overlap, if_pos (by decide)]
    have hc1 : (MapCategories.extract_keywords "coffee shop".data ∩
        MapCategories.extract_keywords "coffee shop".data).card = 2 := by decide
    have hc2 : (MapCategories.extract_keywords "coffee shop".data).card = 2 := by decide
    rw [hc1, hc2]; norm_num
  have hb : MapCategories.containment_bonus "coffee shop".data "coffee shop".data
      (MapCategories.extract_keywords "coffee shop".data) = 30 := by
    rw [MapCategories.containment_bonus, if_pos (by decide)]
  simp only [MapCategories.calculate_similarity]
  rw [mc_norm_coffee1, mc_norm_coffee2, hd, hk, hb]
  norm_num

/-- map_categories.py score of `("", "x")`: the empty normalised string
is a substring of every string, so the containment bonus fires and the
score is `30*0.2 = 6`, not `0`. -/
theorem mc_empty_eval :
    MapCategories.calculate_similarity [] "x".data = 6 := by
  have hn1 : MapCategories.normalize_text [] = [] := by decide
  have hn2 : MapCategories.normalize_text "x".data = "x".data := by decide
  have hd : MapCategories.direct_similarity_of [] "x".data = 0 := by
    rw [MapCategories.direct_similarity_of, hn1, hn2]
    have hm : seqMatches [] "x".data = 0 := by decide
    rw [seqRatioQ, if_neg (by decide), hm]
    norm_num
  have hk : MapCategories.keyword_overlap_of [] "x".data = 0 := by
    rw [MapCategories.keyword_overlap_of, hn1, hn2,
      MapCategories.keyword_overlap, if_neg (by decide)]
  have hb : MapCategories.containment_bonus [] "x".data
      (MapCategories.extract_keywords []) = 30 := by
    rw [MapCategories.containment_bonus, if_pos (by decide)]
  simp only [MapCategories.calculate_similarity]
  rw [hn1, hn2, hd, hk, hb]
  norm_num

/-! ## Claim C1 -/

/-- C1 (counterexample): in map_categories.py, the pair
`("Coffee Shop", "coffee_shop")` has identical normalised forms, yet
`calculate_similarity` returns 86, not the maximum 100 of its 0–100
scale — there is no exact-match short-circuit in that scorer. -/
theorem claim_C1_counterexample :
    MapCategories.calculate_similarity "Coffee Shop".data "coffee_shop".data ≠ 100 := by
  rw [mc_coffee_eval]; norm_num

/-- C1 (amended): `calculate_similarity_score` in category_mapper.py
does short-circuit: for nonempty inputs with identical normalised
forms it returns the maximum 1.0 immediately.  `calculate_similarity`
in map_categories.py has no such short-circuit; on
`("Coffee Shop", "coffee_shop")` it returns 86 (its maximum attainable
composite for identical normalised keyworded strings), not 100. -/
theorem claim_C1_amended :
    (∀ t1 t2 : List Char, t1 ≠ [] → t2 ≠ [] →
      CategoryMapper.normalize_core t1 = CategoryMapper.normalize_core t2 →
      CategoryMapper.calculate_similarity_score t1 t2 = 1) ∧
    MapCategories.calculate_similarity "Coffee Shop".data "coffee_shop".data = 86 := by
  constructor
  · intro t1 t2 h1 h2 hn
    have e1 : t1.isEmpty = false := by
      cases t1
      · exact absurd rfl h1
      · rfl
    have e2 : t2.isEmpty = false := by
      cases t2
      · exact absurd rfl h2
      · rfl
    rw [CategoryMapper.calculate_similarity_score, e1, e2, if_neg (by decide), if_pos hn]
  · exact mc_coffee_eval

/-- C1 witness: the amended short-circuit at a concrete input. -/
theorem claim_C1_witness :
    CategoryMapper.calculate_similarity_score "Coffee Shop".data "coffee_shop".data = 1 :=
  claim_C1_amended.1 "Coffee Shop".data "coffee_shop".data (by decide) (by decide) (by decide)

/-! ## Claim C4 -/

/-- C4 (counterexample): `calculate_similarity("", "x")` in
map_categories.py is 6 (the empty string is a substring of `"x"`, so
the 30-point containment bonus fires), not the claimed minimum 0. -/
theorem claim_C4_counterexample :
    MapCategories.calculate_similarity [] "x".data ≠ 0 := by
  rw [mc_empty_eval]; norm_num

/-- C4 (amended): both scorers stay within their declared ranges for
all inputs (0–100 for map_categories.py, 0–1 for category_mapper.py),
and category_mapper.py maps empty inputs to the minimum 0; but
map_categories.py gives `score("", "x") = 6`, not 0, because its
substring-containment test also fires on the empty normalised string. -/
theorem claim_C4_amended :
    (∀ a b : List Char, 0 ≤ MapCategories.calculate_similarity a b ∧
      MapCategories.calculate_similarity a b ≤ 100) ∧
    (∀ a b : List Char, 0 ≤ CategoryMapper.calculate_similarity_score a b ∧
      CategoryMapper.calculate_similarity_score a b ≤ 1) ∧
    (∀ t : List Char, CategoryMapper.calculate_similarity_score [] t = 0 ∧
      CategoryMapper.calculate_similarity_score t [] = 0) ∧
    MapCategories.calculate_similarity [] "x".data = 6 := by
  refine ⟨mc_score_bounds, cm_score_bounds, ?_, mc_empty_eval⟩
  intro t
  constructor
  · rw [CategoryMapper.calculate_similarity_score, if_pos (by simp)]
  · rw [CategoryMapper.calculate_similarity_score, if_pos (by simp)]

/-! ## Claim C7 -/

theorem mc_overlap_coffee1 :
    MapCategories.keyword_overlap_of "coffee shop".data "coffee".data = 50 := by
  rw [MapCategories.keyword_overlap_of, MapCategories.keyword_overlap, if_pos (by decide)]
  have hc1 : (MapCategories.extract_keywords
      (MapCategories.normalize_text "coffee shop".data) ∩
      MapCategories.extract_keywords
      (MapCategories.normalize_text "coffee".data)).card = 1 := by decide
  have hc2 : (MapCategories.extract_keywords
      (MapCategories.normalize_text "coffee shop".data)).card = 2 := by decide
  rw [hc1, hc2]
  norm_num

theorem mc_overlap_coffee2 :
    MapCategories.keyword_overlap_of "coffee".data "coffee shop".data = 100 := by
  rw [MapCategories.keyword_overlap_of, MapCategories.keyword_overlap, if_pos (by decide)]
  have hc1 : (MapCategories.extract_keywords
      (MapCategories.normalize_text "coffee".data) ∩
      MapCategories.extract_keywords
      (MapCategories.normalize_text "coffee shop".data)).card = 1 := by decide
  have hc2 : (MapCategories.extract_keywords
      (MapCategories.normalize_text "coffee".data)).card = 1 := by decide
  rw [hc1, hc2]
  norm_num

/-- `SequenceMatcher.ratio()` is itself order-sensitive: with
`a = "abzcdzab"`, `b = "cdwab"` the recursive matching-block search
finds total match size 2 one way ("ab", then nothing on either side)
but 4 the other way ("cd" and "ab"). -/
theorem seq_asym1 : seqRatioQ "abzcdzab".data "cdwab".data = 4/13 := by
  rw [seqRatioQ, if_neg (by decide)]
  rw [show seqMatches "abzcdzab".data "cdwab".data = 2 from by decide]
  rw [show ("abzcdzab".data).length = 8 from by decide,
    show ("cdwab".data).length = 5 from by decide]
  norm_num

theorem seq_asym2 : seqRatioQ "cdwab".data "abzcdzab".data = 8/13 := by
  rw [seqRatioQ, if_neg (by decide)]
  rw [show seqMatches "cdwab".data "abzcdzab".data = 4 from by decide]
  rw [show ("cdwab".data).length = 5 from by decide,
    show ("abzcdzab".data).length = 8 from by decide]
  norm_num

theorem mc_direct_asym1 :
    MapCategories.direct_similarity_of "abZcdZab".data "cdWab".data = 400/13 := by
  rw [MapCategories.direct_similarity_of,
    show MapCategories.normalize_text "abZcdZab".data = "abzcdzab".data from by decide,
    show MapCategories.normalize_text "cdWab".data = "cdwab".data from by decide,
    seq_asym1]
  norm_num

theorem mc_direct_asym2 :
    MapCategories.direct_similarity_of "cdWab".data "abZcdZab".data = 800/13 := by
  rw [MapCategories.direct_similarity_of,
    show MapCategories.normalize_text "cdWab".data = "cdwab".data from by decide,
    show MapCategories.normalize_text "abZcdZab".data = "abzcdzab".data from by decide,
    seq_asym2]
  norm_num

/-- C7 (counterexample): both symmetry conjuncts of the claim fail on
map_categories.py.  The token-overlap component divides by the *first*
argument's keyword count: `overlap("coffee shop", "coffee") = 50` but
`overlap("coffee", "coffee shop") = 100`.  And the sequence-similarity
component (`difflib.SequenceMatcher.ratio()` of the normalised strings,
scaled to 0–100) is order-sensitive too:
`direct("abZcdZab", "cdWab") = 400/13` but the reverse is `800/13`,
because the greedy matching-block recursion finds matches of total size
2 in one direction and 4 in the other. -/
theorem claim_C7_counterexample :
    (MapCategories.keyword_overlap_of "coffee shop".data "coffee".data ≠
      MapCategories.keyword_overlap_of "coffee".data "coffee shop".data) ∧
    (MapCategories.direct_similarity_of "abZcdZab".data "cdWab".data ≠
      MapCategories.direct_similarity_of "cdWab".data "abZcdZab".data) := by
  constructor
  · rw [mc_overlap_coffee1, mc_overlap_coffee2]
    norm_num
  · rw [mc_direct_asym1, mc_direct_asym2]
    norm_num

/-- C7 (amended): in category_mapper.py the token-overlap component
(intersection over union) and the containment bonus are symmetric in
the two arguments.  Neither asserted symmetry holds in
map_categories.py: its token-overlap ratio normalises by the first
argument's keyword-set size (50 against 100 on the coffee example), and
the shared sequence-similarity primitive — the difflib ratio both
scorers use — is itself order-sensitive (4/13 against 8/13 on
`"abzcdzab"` and `"cdwab"`). -/
theorem claim_C7_amended :
    (∀ n1 n2 : List Char,
      CategoryMapper.word_similarity n1 n2 = CategoryMapper.word_similarity n2 n1 ∧
      CategoryMapper.containment_bonus n1 n2 = CategoryMapper.containment_bonus n2 n1) ∧
    seqRatioQ "abzcdzab".data "cdwab".data = 4/13 ∧
    seqRatioQ "cdwab".data "abzcdzab".data = 8/13 ∧
    MapCategories.keyword_overlap_of "coffee shop".data "coffee".data = 50 ∧
    MapCategories.keyword_overlap_of "coffee".data "coffee shop".data = 100 := by
  refine ⟨?_, seq_asym1, seq_asym2, mc_overlap_coffee1, mc_overlap_coffee2⟩
  intro n1 n2
  constructor
  · simp only [CategoryMapper.word_similarity]
    rw [Finset.inter_comm ((pyWords n2).toFinset) ((pyWords n1).toFinset),
      Finset.union_comm ((pyWords n2).toFinset) ((pyWords n1).toFinset)]
    split_ifs <;> first | rfl | tauto
  · simp only [CategoryMapper.containment_bonus]
    split_ifs <;> first | rfl | tauto

/-! ## Stable sorting by descending score

Python's `list.sort(key=..., reverse=True)` and rapidfuzz's
`process.extract` ranking are stable sorts by descending score.  A
stable sort is uniquely determined by the key, so the structurally
recursive insertion sort below has exactly their semantics (and, unlike
`List.mergeSort`, reduces in the kernel). -/

/-- Insert `x` after every element whose key is at least `key x`
(stable descending insertion). -/
def insertByDesc {α : Type} (key : α → ℚ) (x : α) : List α → List α
  | [] => [x]
  | y :: ys => if key x ≤ key y then y :: insertByDesc key x ys else x :: y :: ys

/-- Stable sort by descending key. -/
def sortByDesc {α : Type} (key : α → ℚ) (l : List α) : List α :=
  l.foldl (fun acc x => insertByDesc key x acc) []

/-! ## map_om_to_fsq.py

The two rapidfuzz scorers (`fuzz.token_set_ratio`, `fuzz.partial_ratio`)
are third-party library functions, not code of this repository; they are
abstracted as function parameters `tsr` and `pr`, so every theorem below
holds for the real scorers.  CSV parsing and float formatting are I/O
glue and out of scope. -/

namespace MapOmToFsq

/-- `\b` between two (optional) neighbouring characters: exactly one of
them is a word character (string edges count as non-word). -/
def boundaryAt (prev next : Option Char) : Bool :=
  match prev, next with
  | none, none => false
  | none, some d => isWordC d
  | some c, none => isWordC c
  | some c, some d => isWordC c != isWordC d

/-- Worker for the `AMPERSAND` substitution
`re.sub(r"\b(and|\&)\b", " and ", t)`: at each position try the
alternative `and` (word boundaries on both sides), then `&` (which,
being a non-word character, needs word characters on both sides). -/
def ampSubF : Nat → Option Char → List Char → List Char
  | _, _, [] => []
  | 0, _, s => s
  | fuel+1, prev, c :: cs =>
    if "and".data.isPrefixOf (c :: cs) && boundaryAt prev (some c)
        && boundaryAt (some 'd') ((c :: cs).drop 3).head? then
      " and ".data ++ ampSubF fuel (some 'd') ((c :: cs).drop 3)
    else if c = '&' && boundaryAt prev (some '&') && boundaryAt (some '&') cs.head? then
      " and ".data ++ ampSubF fuel (some '&') cs
    else
      c :: ampSubF fuel (some c) cs

/-- The `AMPERSAND` regex substitution. -/
def ampSub (s : List Char) : List Char := ampSubF s.length none s

/-- Worker for the `UNDERSCORES` substitution `re.sub(r"_+", " ", t)`:
a run of underscores becomes one space. -/
def underscoreSubF : Nat → List Char → List Char
  | _, [] => []
  | 0, s => s
  | fuel+1, c :: cs =>
    if c = '_' then ' ' :: underscoreSubF fuel (cs.dropWhile (fun d => d = '_'))
    else c :: underscoreSubF fuel cs

/-- The `UNDERSCORES` regex substitution. -/
def underscoreSub (s : List Char) : List Char := underscoreSubF s.length s

/-- `normalize` from map_om_to_fsq.py: strip + lower, underscore runs
to a space, the ampersand substitution, characters outside `[a-z0-9 &]`
to a space, whitespace runs to a space, strip. -/
def normalize (text : List Char) : List Char :=
  let t1 := (stripWs text).map pyLower
  let t2 := underscoreSub t1
  let t3 := ampSub t2
  let t4 := t3.map (fun c => if isAz09 c || c = ' ' || c = '&' then c else ' ')
  collapseWs t4

/-- One row of `FSQ Categories.csv` as read by `load_fsq_categories`. -/
structure FsqRow where
  categoryId : List Char
  categoryLabel : List Char
  categoryPrimary : List Char
  categorySecondary : List Char
deriving DecidableEq

/-- `load_fsq_categories` keeps the rows with a nonempty label. -/
def load_fsq (raw : List FsqRow) : List FsqRow :=
  raw.filter (fun r => !r.categoryLabel.isEmpty)

/-- The `_norm` field of a loaded row. -/
def fsqNorm (r : FsqRow) : List Char := normalize r.categoryLabel

/-- The `_norm_leaf` field: leaf-most segment of the label. -/
def fsqNormLeaf (r : FsqRow) : List Char :=
  normalize (stripWs ((splitSeq " > ".data r.categoryLabel).getLastD []))

/-- `combined_score`, with the two rapidfuzz scorers abstracted:
`0.35*tsr(q, full) + 0.25*pr(q, full) + 0.25*tsr(q, leaf) + 0.15*pr(q, leaf)`. -/
def combined_score (tsr pr : List Char → List Char → ℚ)
    (query cand candLeaf : List Char) : ℚ :=
  (35/100) * tsr query cand + (25/100) * pr query cand
    + (25/100) * tsr query candLeaf + (15/100) * pr query candLeaf

/-- `rapidfuzz.process.extract(q, choices, scorer, limit)`: score every
choice, rank by descending score (stable), keep the first `limit`. -/
def processExtract (scorer : List Char → List Char → ℚ) (q : List Char)
    (choices : List (List Char)) (limit : Nat) : List (List Char × ℚ × Nat) :=
  (sortByDesc (fun t => t.2.1)
    (choices.enum.map (fun p => (p.2, scorer q p.2, p.1)))).take limit

/-- `match_one`: shortlist on full and leaf normalised labels with
`tsr`, take the union of the shortlisted row indices (a Python integer
set, modelled as the ascending list of its elements), re-score each
with `combined_score`, sort by descending score and keep `topn`. -/
def match_one (tsr pr : List Char → List Char → ℚ) (query_label : List Char)
    (norm_full norm_leaf : List (List Char)) (topn : Nat) : List (Nat × ℚ) :=
  let q := normalize query_label
  let lim := max 50 (topn * 10)
  let shortFull := processExtract tsr q norm_full lim
  let shortLeaf := processExtract tsr q norm_leaf lim
  let hits := shortFull.map (fun t => t.2.2) ++ shortLeaf.map (fun t => t.2.2)
  let indices := (List.range norm_full.length).filter (fun i => hits.contains i)
  let rescored := indices.map
    (fun i => (i, combined_score tsr pr q (norm_full.getD i []) (norm_leaf.getD i [])))
  (sortByDesc (fun t => t.2) rescored).take topn

/-- `while len(matches) < 3: matches.append((0, 0.0))`. -/
def padMatches (ms : List (Nat × ℚ)) : List (Nat × ℚ) :=
  ms ++ List.replicate (3 - ms.length) (0, 0)

/-- `row_at` from `main`: the row at `i`, or an all-empty row when the
index is out of range. -/
def row_at (fsq_rows : List FsqRow) (i : Nat) : FsqRow :=
  if i < fsq_rows.length then fsq_rows.getD i ⟨[], [], [], []⟩ else ⟨[], [], [], []⟩

/-- `needs_review = "TRUE" if s0 < 80 else "FALSE"`. -/
def needs_review (s0 : ℚ) : List Char :=
  if s0 < 80 then "TRUE".data else "FALSE".data

/-- One output row written by `main` (score formatting to one decimal
is CSV glue and omitted; the fields keep their exact values). -/
structure OutRow where
  omLabel : List Char
  bestLabel : List Char
  bestId : List Char
  bestPrimary : List Char
  bestSecondary : List Char
  bestScore : ℚ
  alt1Label : List Char
  alt1Id : List Char
  alt1Score : ℚ
  alt2Label : List Char
  alt2Id : List Char
  alt2Score : ℚ
  needsReview : List Char
deriving DecidableEq

/-- The body of the `for om_label in om_labels` loop of `main`. -/
def buildRow (fsq_rows : List FsqRow) (om_label : List Char)
    (found : List (Nat × ℚ)) : OutRow :=
  let ms := padMatches found
  let m0 := ms.getD 0 (0, 0)
  let m1 := ms.getD 1 (0, 0)
  let m2 := ms.getD 2 (0, 0)
  let r0 := row_at fsq_rows m0.1
  let r1 := row_at fsq_rows m1.1
  let r2 := row_at fsq_rows m2.1
  { omLabel := om_label
    bestLabel := r0.categoryLabel
    bestId := r0.categoryId
    bestPrimary := r0.categoryPrimary
    bestSecondary := r0.categorySecondary
    bestScore := m0.2
    alt1Label := r1.categoryLabel
    alt1Id := r1.categoryId
    alt1Score := m1.2
    alt2Label := r2.categoryLabel
    alt2Id := r2.categoryId
    alt2Score := m2.2
    needsReview := needs_review m0.2 }

/-- `main` over already-loaded inputs: one output row per OM label. -/
def mainRows (tsr pr : List Char → List Char → ℚ) (fsq_raw : List FsqRow)
    (om_labels : List (List Char)) : List OutRow :=
  let fsq_rows := load_fsq fsq_raw
  let nf := fsq_rows.map fsqNorm
  let nl := fsq_rows.map fsqNormLeaf
  om_labels.map (fun lab => buildRow fsq_rows lab (match_one tsr pr lab nf nl 3))

end MapOmToFsq

/-- filter_needs_review.py: keep exactly the rows whose `NEEDS_REVIEW`
field upper-cases to `"TRUE"`. -/
def filter_needs_review (rows : List MapOmToFsq.OutRow) : List MapOmToFsq.OutRow :=
  rows.filter (fun r => decide (r.needsReview.map pyUpper = "TRUE".data))

/-! ## Claim C5 -/

theorem needs_review_iff (s : ℚ) :
    MapOmToFsq.needs_review s = "TRUE".data ↔ s < 80 := by
  rw [MapOmToFsq.needs_review]
  split_ifs with h
  · exact iff_of_true rfl h
  · exact iff_of_false (by decide) h

/-- C5: in every output row of map_om_to_fsq.py, the needs-review flag
is `"TRUE"` iff the primary (best) score is strictly below 80; the
boundary score 80 resolves to `"FALSE"`; and filter_needs_review.py
keeps exactly the rows whose `NEEDS_REVIEW` field is `"TRUE"` (for the
`"TRUE"`/`"FALSE"` values that map_om_to_fsq.py writes). -/
theorem claim_C5 :
    (∀ (fsq_rows : List MapOmToFsq.FsqRow) (om_label : List Char)
        (found : List (Nat × ℚ)),
      ((MapOmToFsq.buildRow fsq_rows om_label found).needsReview = "TRUE".data ↔
        (MapOmToFsq.buildRow fsq_rows om_label found).bestScore < 80)) ∧
    MapOmToFsq.needs_review 80 = "FALSE".data ∧
    (∀ rows : List MapOmToFsq.OutRow,
      (∀ r ∈ rows, r.needsReview = "TRUE".data ∨ r.needsReview = "FALSE".data) →
      filter_needs_review rows =
        rows.filter (fun r => decide (r.needsReview = "TRUE".data))) := by
  refine ⟨?_, ?_, ?_⟩
  · intro fsq_rows om_label found
    simp only [MapOmToFsq.buildRow]
    exact needs_review_iff _
  · rw [MapOmToFsq.needs_review, if_neg (by norm_num)]
  · intro rows hrows
    rw [filter_needs_review]
    apply List.filter_congr
    intro r hr
    rcases hrows r hr with h | h
    · rw [h]; decide
    · rw [h]; decide

/-- C5 witness: the filter keeps exactly the `"TRUE"` row of a concrete
two-row input. -/
theorem claim_C5_witness :
    filter_needs_review
        [⟨"a".data, [], [], [], [], 90, [], [], 0, [], [], 0, "FALSE".data⟩,
         ⟨"b".data, [], [], [], [], 10, [], [], 0, [], [], 0, "TRUE".data⟩] =
      List.filter (fun r => decide (r.needsReview = "TRUE".data))
        [⟨"a".data, [], [], [], [], 90, [], [], 0, [], [], 0, "FALSE".data⟩,
         ⟨"b".data, [], [], [], [], 10, [], [], 0, [], [], 0, "TRUE".data⟩] :=
  claim_C5.2.2 _ (by decide)

/-! ## Claim C10 -/

theorem pad_getD_two (ms : List (Nat × ℚ)) (h : ms.length ≤ 2) :
    (MapOmToFsq.padMatches ms).getD 2 (0, 0) = (0, 0) := by
  match ms with
  | [] => rfl
  | [a] => rfl
  | [a, b] => rfl
  | a :: b :: c :: t => simp at h

theorem pad_getD_one (ms : List (Nat × ℚ)) (h : ms.length ≤ 1) :
    (MapOmToFsq.padMatches ms).getD 1 (0, 0) = (0, 0) := by
  match ms with
  | [] => rfl
  | [a] => rfl
  | a :: b :: t => simp at h

theorem row_at_zero (rows : List MapOmToFsq.FsqRow) (h : rows ≠ []) :
    MapOmToFsq.row_at rows 0 = rows.getD 0 ⟨[], [], [], []⟩ := by
  rw [MapOmToFsq.row_at, if_pos]
  exact List.length_pos.mpr h

/-- C10: in map_om_to_fsq.py, when `match_one` returns fewer than three
matches the missing slots are padded with `(0, 0.0)`, so with a
nonempty Foursquare table the output row reports the first loaded
Foursquare row's label and ID with score 0 in those slots. -/
theorem claim_C10 :
    ∀ (tsr pr : List Char → List Char → ℚ) (fsq_raw : List MapOmToFsq.FsqRow)
      (lab : List Char),
      MapOmToFsq.load_fsq fsq_raw ≠ [] →
      ∀ found : List (Nat × ℚ),
        found = MapOmToFsq.match_one tsr pr lab
          ((MapOmToFsq.load_fsq fsq_raw).map MapOmToFsq.fsqNorm)
          ((MapOmToFsq.load_fsq fsq_raw).map MapOmToFsq.fsqNormLeaf) 3 →
        found.length ≤ 2 →
        ((MapOmToFsq.buildRow (MapOmToFsq.load_fsq fsq_raw) lab found).alt2Label =
            ((MapOmToFsq.load_fsq fsq_raw).getD 0 ⟨[], [], [], []⟩).categoryLabel ∧
          (MapOmToFsq.buildRow (MapOmToFsq.load_fsq fsq_raw) lab found).alt2Id =
            ((MapOmToFsq.load_fsq fsq_raw).getD 0 ⟨[], [], [], []⟩).categoryId ∧
          (MapOmToFsq.buildRow (MapOmToFsq.load_fsq fsq_raw) lab found).alt2Score = 0) ∧
        (found.length ≤ 1 →
          (MapOmToFsq.buildRow (MapOmToFsq.load_fsq fsq_raw) lab found).alt1Label =
            ((MapOmToFsq.load_fsq fsq_raw).getD 0 ⟨[], [], [], []⟩).categoryLabel ∧
          (MapOmToFsq.buildRow (MapOmToFsq.load_fsq fsq_raw) lab found).alt1Score = 0) := by
  intro tsr pr fsq_raw lab hne found _ hlen
  constructor
  · simp only [MapOmToFsq.buildRow]
    rw [pad_getD_two found hlen]
    rw [row_at_zero _ hne]
    exact ⟨rfl, rfl, rfl⟩
  · intro hlen1
    simp only [MapOmToFsq.buildRow]
    rw [pad_getD_one found hlen1]
    rw [row_at_zero _ hne]
    exact ⟨rfl, rfl⟩

/-- C10 witness: a one-row Foursquare table yields one match; the two
alternate slots of the output row fall back to that first row with
score 0. -/
theorem claim_C10_witness :
    (MapOmToFsq.buildRow (MapOmToFsq.load_fsq [⟨"1".data, "Food".data, [], []⟩])
        "cafe".data
        (MapOmToFsq.match_one (fun _ _ => 0) (fun _ _ => 0) "cafe".data
          ((MapOmToFsq.load_fsq [⟨"1".data, "Food".data, [], []⟩]).map MapOmToFsq.fsqNorm)
          ((MapOmToFsq.load_fsq [⟨"1".data, "Food".data, [], []⟩]).map
            MapOmToFsq.fsqNormLeaf) 3)).alt2Label =
      ((MapOmToFsq.load_fsq [⟨"1".data, "Food".data, [], []⟩]).getD 0
        ⟨[], [], [], []⟩).categoryLabel :=
  (claim_C10 (fun _ _ => 0) (fun _ _ => 0) [⟨"1".data, "Food".data, [], []⟩]
    "cafe".data (by decide) _ rfl (by decide)).1.1

/-! ## simplify_overture_categories.py

`get_simplified_category` is a chain of
`if any(kw in cat for kw in [...]): if no exclusion in cat: return bucket`
tests; a rule whose exclusion matches falls through to the next rule, so
the function is first-match over an ordered table of
(bucket, inclusion keywords, exclusion keywords) rules, followed by a
special business-to-business test and the default bucket. -/

namespace SimplifyOverture

/-- One keyword-group rule of the flattener. -/
structure Rule where
  bucket : List Char
  keywords : List (List Char)
  exclusions : List (List Char)
deriving DecidableEq

/-- `any(kw in cat for kw in keywords)` and no exclusion occurs. -/
def ruleFires (r : Rule) (cat : List Char) : Bool :=
  r.keywords.any (fun k => decide (k <:+: cat))
    && r.exclusions.all (fun e => !decide (e <:+: cat))

/-- The ordered rule table of `get_simplified_category`:
(bucket, inclusion keywords, exclusion keywords), transcribed in
source order. -/
def rules : List Rule := [
  { bucket := "Food & Dining".data,
    keywords := ["restaurant".data, "cafe".data, "coffee".data, "food".data,
      "dining".data, "bar".data, "pub".data, "brewery".data,
      "winery".data, "bakery".data, "pizza".data, "burger".data,
      "sandwich".data, "diner".data, "bistro".data, "eatery".data,
      "caterer".data, "donuts".data, "ice_cream".data, "dessert".data,
      "candy".data, "chocolate".data, "patisserie".data, "bagel".data,
      "taco".data, "barbecue".data, "steakhouse".data, "gastropub".data,
      "brasserie".data, "lounge".data, "_bar".data, "cocktail".data,
      "wine_bar".data, "beer_bar".data, "speakeasy".data, "champagne_bar".data,
      "sake_bar".data, "hookah".data, "cigar_bar".data, "tea_room".data,
      "juice_bar".data, "smoothie".data, "meat_shop".data, "butcher".data,
      "seafood".data, "delicatessen".data, "cheese_shop".data, "pasta_shop".data,
      "pie_shop".data, "cupcake".data, "empanadas".data, "pretzel".data,
      "popcorn".data, "hot_dog".data, "chicken_wings".data, "poke".data,
      "doner".data, "falafel".data, "dumpling".data, "noodles".data,
      "sushi".data, "dim_sum".data, "waffle".data, "pancake".data,
      "gelato".data, "frozen_yoghurt".data, "shaved_ice".data, "acai".data,
      "kombucha".data, "bubble_tea".data, "cidery".data, "distillery".data,
      "eat_and_drink".data, "tapas".data, "gastropub".data],
    exclusions := [] },
  { bucket := "Healthcare & Medical".data,
    keywords := ["doctor".data, "physician".data, "medical".data, "health".data,
      "clinic".data, "hospital".data, "dentist".data, "dental".data,
      "surgeon".data, "surgery".data, "therapist".data, "therapy".data,
      "chiropractor".data, "acupuncture".data, "optometrist".data, "ophthalmologist".data,
      "podiatrist".data, "dermatologist".data, "cardiologist".data, "neurologist".data,
      "oncologist".data, "pediatric".data, "obstetrician".data, "gynecologist".data,
      "urologist".data, "radiologist".data, "anesthesiologist".data, "pathologist".data,
      "psychiatrist".data, "psychologist".data, "counselor".data, "psychotherapist".data,
      "pharmacy".data, "medicine".data, "veterinarian".data, "veterinary".data,
      "animal_hospital".data, "emergency_room".data, "urgent_care".data, "rehabilitation".data,
      "hospice".data, "nursing".data, "dialysis".data, "orthopedist".data,
      "allergist".data, "endocrinologist".data, "gastroenterologist".data, "nephrologist".data,
      "pulmonologist".data, "rheumatologist".data, "hematology".data, "hepatologist".data,
      "proctologist".data, "toxicologist".data, "immunologist".data, "geneticist".data,
      "retina_specialist".data, "otologist".data, "audiologist".data, "speech_therapist".data,
      "occupational_therapy".data, "physical_therapy".data, "massage_therapy".data, "naturopathic".data,
      "holistic".data, "alternative_medicine".data, "homeopathic".data, "ayurveda".data,
      "acne_treatment".data, "laser_eye".data, "cannabis_clinic".data, "fertility".data,
      "midwife".data, "doula".data, "maternity".data, "prenatal".data,
      "lactation".data, "abortion".data, "mohel".data],
    exclusions := [] },
  { bucket := "Retail & Shopping".data,
    keywords := ["store".data, "shop".data, "retail".data, "boutique".data,
      "market".data, "supermarket".data, "grocery".data, "department_store".data,
      "discount_store".data, "outlet".data, "thrift".data, "pawn".data,
      "convenience_store".data, "drugstore".data, "mall".data, "shopping_center".data,
      "bookstore".data, "toy_store".data, "gift_shop".data, "souvenir".data,
      "clothing".data, "apparel".data, "shoe_store".data, "jewelry_store".data,
      "watch_store".data, "eyewear".data, "optical".data, "furniture_store".data,
      "home_goods".data, "hardware_store".data, "paint_store".data, "flooring_store".data,
      "carpet_store".data, "tile_store".data, "lighting_store".data, "appliance_store".data,
      "electronics".data, "computer_store".data, "mobile_phone_store".data, "sporting_goods".data,
      "outdoor_gear".data, "bike_shop".data, "surf_shop".data, "dive_shop".data,
      "gun_and_ammo".data, "pet_store".data, "aquatic_pet".data, "bird_shop".data,
      "reptile_shop".data, "art_supply".data, "craft_shop".data, "fabric_store".data,
      "knitting".data, "yarn".data, "music_store".data, "instrument_store".data,
      "vinyl_record".data, "video_game_store".data, "comic_books".data, "antique".data,
      "vintage".data, "flea_market".data, "farmers_market".data, "shopping".data,
      "superstore".data, "kiosk".data, "dispensary".data, "liquor_store".data,
      "tobacco_shop".data, "vape".data, "e_cigarette".data],
    exclusions := [] },
  { bucket := "Automotive".data,
    keywords := ["auto".data, "automotive".data, "car_".data, "vehicle".data,
      "truck_".data, "motorcycle".data, "scooter_dealer".data, "dealer".data,
      "repair".data, "mechanic".data, "tire".data, "brake".data,
      "transmission".data, "muffler".data, "body_shop".data, "detailing".data,
      "car_wash".data, "towing".data, "gas_station".data, "fuel_".data,
      "oil_change".data, "smog".data, "inspection".data, "emissions".data,
      "windshield".data, "window_tint".data, "upholstery".data, "customization".data,
      "restoration".data],
    exclusions := ["museum".data] },
  { bucket := "Beauty & Wellness".data,
    keywords := ["salon".data, "barber".data, "hair_".data, "nail_".data,
      "spa".data, "beauty".data, "esthetician".data, "aesthetician".data,
      "massage".data, "facial".data, "wax".data, "laser_hair".data,
      "eyelash".data, "eyebrow".data, "tanning".data, "tattoo".data,
      "piercing".data, "makeup".data, "cosmetic".data, "skin_care".data,
      "aromatherapy".data, "reiki".data, "halotherapy".data, "cryotherapy".data,
      "hydrotherapy".data, "float_spa".data, "sauna".data, "fitness".data,
      "gym".data, "yoga".data, "pilates".data, "boxing".data,
      "martial_arts".data, "karate".data, "taekwondo".data, "jiu_jitsu".data,
      "muay_thai".data, "kickboxing".data, "boot_camp".data, "trainer".data,
      "weight_loss".data, "nutrition".data, "dietitian".data, "health_coach".data,
      "blow_dry".data, "threading".data, "sugaring".data, "boudoir".data],
    exclusions := ["supply".data, "school".data, "product".data, "manufacturer".data] },
  { bucket := "Sports & Recreation".data,
    keywords := ["sports".data, "stadium".data, "arena".data, "field".data,
      "court".data, "track".data, "pitch".data, "golf".data,
      "bowling".data, "skating".data, "ski_".data, "climbing".data,
      "swimming_pool".data, "tennis".data, "basketball".data, "football".data,
      "soccer".data, "baseball".data, "hockey".data, "volleyball".data,
      "rugby".data, "cricket".data, "squash".data, "racquetball".data,
      "handball".data, "badminton".data, "table_tennis".data, "bocce".data,
      "disc_golf".data, "mini_golf".data, "go_kart".data, "race_track".data,
      "shooting_range".data, "archery".data, "paintball".data, "laser_tag".data,
      "trampoline".data, "bounce_house".data, "batting_cage".data, "skate_park".data,
      "bmx".data, "mountain_bike".data, "trail".data, "hiking".data,
      "scuba".data, "diving".data, "snorkel".data, "surf".data,
      "kite".data, "paddle".data, "kayak".data, "canoe".data,
      "sailing".data, "rowing".data, "fishing".data, "hunting".data,
      "horse_".data, "equestrian".data, "ski_resort".data, "tubing".data,
      "sledding".data, "snowboard".data, "ice_rink".data, "gym".data,
      "fitness".data, "aerial".data, "rock_climbing".data, "bouldering".data],
    exclusions := ["museum".data, "store".data, "equipment".data] },
  { bucket := "Arts & Entertainment".data,
    keywords := ["museum".data, "gallery".data, "theater".data, "theatre".data,
      "cinema".data, "movie".data, "performing_arts".data, "concert".data,
      "music_venue".data, "comedy".data, "nightclub".data, "dance_club".data,
      "amusement".data, "theme_park".data, "water_park".data, "zoo".data,
      "aquarium".data, "botanical".data, "casino".data, "arcade".data,
      "escape_room".data, "virtual_reality".data, "festival".data, "fair".data,
      "carnival".data, "circus".data, "rodeo".data, "haunted_house".data,
      "observatory".data, "planetarium".data, "artist".data, "art_".data,
      "cultural_center".data, "karaoke".data, "bingo".data, "magic".data,
      "clown".data, "entertainment".data, "production".data, "studio".data,
      "recording".data, "rehearsal".data, "band".data, "orchestra".data,
      "choir".data, "opera".data, "ballet".data, "dance_school".data,
      "drama".data, "acting".data],
    exclusions := [] },
  { bucket := "Education".data,
    keywords := ["school".data, "university".data, "college".data, "education".data,
      "academy".data, "institute".data, "kindergarten".data, "preschool".data,
      "day_care".data, "daycare".data, "elementary".data, "middle_school".data,
      "high_school".data, "tutoring".data, "training".data, "class".data,
      "lesson".data, "instructor".data, "teacher".data, "coach".data,
      "library".data, "student_union".data, "montessori".data, "waldorf".data,
      "charter_school".data, "vocational".data, "technical_school".data],
    exclusions := ["driving".data, "traffic".data, "bartending".data] },
  { bucket := "Accommodation & Lodging".data,
    keywords := ["hotel".data, "motel".data, "inn".data, "resort".data,
      "lodge".data, "hostel".data, "bed_and_breakfast".data, "vacation_rental".data,
      "cottage".data, "cabin".data, "apartment".data, "condominium".data,
      "housing".data, "accommodation".data, "campground".data, "rv_park".data,
      "guest_house".data, "pension".data, "houseboat".data],
    exclusions := [] },
  { bucket := "Professional Services".data,
    keywords := ["lawyer".data, "attorney".data, "law".data, "legal".data,
      "accountant".data, "bookkeeper".data, "tax_service".data, "financial".data,
      "consultant".data, "consulting".data, "marketing".data, "advertising".data,
      "public_relations".data, "design".data, "architect".data, "engineer".data,
      "management".data, "hr_".data, "human_resource".data, "employment".data,
      "recruiting".data, "temp_agency".data, "notary".data, "paralegal".data,
      "mediator".data, "appraisal".data, "web_designer".data, "graphic_designer".data,
      "photographer".data, "videographer".data, "writer".data, "editor".data,
      "translation".data, "interpreter".data, "transcription".data],
    exclusions := ["museum".data, "school".data] },
  { bucket := "Financial Services".data,
    keywords := ["bank".data, "credit_union".data, "atm".data, "insurance".data,
      "loan".data, "mortgage".data, "investment".data, "financial".data,
      "broker".data, "stock".data, "currency_exchange".data, "check_cashing".data,
      "payday".data, "bail_bonds".data, "credit_counseling".data, "debt_relief".data,
      "accounting".data, "tax_".data, "bookkeeping".data],
    exclusions := ["museum".data] },
  { bucket := "Real Estate".data,
    keywords := ["real_estate".data, "property_management".data, "apartment_agent".data, "housing".data,
      "developer".data, "home_staging".data, "home_inspector".data],
    exclusions := [] },
  { bucket := "Construction & Contractors".data,
    keywords := ["contractor".data, "construction".data, "builder".data, "plumbing".data,
      "electrician".data, "hvac".data, "roofing".data, "carpenter".data,
      "mason".data, "concrete".data, "drywall".data, "painting".data,
      "remodeling".data, "renovation".data, "foundation".data, "excavation".data,
      "demolition".data, "tiling".data, "flooring".data, "siding".data,
      "insulation".data, "waterproof".data, "septic".data, "well_drilling".data,
      "paving".data],
    exclusions := ["school".data, "supply".data] },
  { bucket := "Home & Garden Services".data,
    keywords := ["landscaping".data, "lawn".data, "gardener".data, "tree_service".data,
      "pest_control".data, "cleaning".data, "janitorial".data, "maid".data,
      "window_washing".data, "carpet_cleaning".data, "gutter".data, "fence".data,
      "deck".data, "patio".data, "pool_cleaning".data, "handyman".data,
      "locksmith".data, "security_system".data, "garage_door".data, "door_service".data,
      "appliance_repair".data, "junk_removal".data, "hauling".data, "moving".data,
      "movers".data, "snow_removal".data, "pressure_washing".data, "chimney".data],
    exclusions := ["store".data, "supply".data] },
  { bucket := "Government & Public Services".data,
    keywords := ["government".data, "city_hall".data, "town_hall".data, "courthouse".data,
      "dmv".data, "motor_vehicle".data, "post_office".data, "police".data,
      "fire_department".data, "emergency_service".data, "social_security".data, "unemployment".data,
      "welfare".data, "public_health".data, "department_of".data, "office_of".data,
      "bureau".data, "agency".data, "commission".data, "federal".data,
      "state".data, "local".data, "municipal".data, "civic".data,
      "embassy".data, "military".data, "army".data, "navy".data,
      "armed_forces".data, "national_security".data, "jail".data, "prison".data,
      "detention".data, "passport".data, "visa".data, "customs".data],
    exclusions := ["school".data, "museum".data] },
  { bucket := "Utilities & Infrastructure".data,
    keywords := ["utility".data, "electric".data, "power_plant".data, "energy".data,
      "water_supplier".data, "sewage".data, "sanitation".data, "waste".data,
      "garbage".data, "recycling".data, "telecommunications".data, "internet".data,
      "cable".data, "phone_service".data, "pipeline".data, "dam".data,
      "bridge".data, "tunnel".data, "toll_station".data],
    exclusions := ["repair".data, "installation".data] },
  { bucket := "Religious & Spiritual".data,
    keywords := ["church".data, "temple".data, "mosque".data, "synagogue".data,
      "cathedral".data, "chapel".data, "religious".data, "spiritual".data,
      "monastery".data, "convent".data, "shrine".data, "meditation".data,
      "buddhist".data, "hindu".data, "christian".data, "catholic".data,
      "protestant".data, "episcopal".data, "baptist".data, "pentecostal".data,
      "evangelical".data, "jehovah".data, "sikh".data, "mission".data,
      "parish".data, "astrologer".data, "psychic".data, "mystic".data],
    exclusions := [] },
  { bucket := "Transportation".data,
    keywords := ["airport".data, "train_station".data, "bus_station".data, "metro".data,
      "subway".data, "transit".data, "ferry".data, "port".data,
      "terminal".data, "taxi".data, "ride_sharing".data, "limo".data,
      "shuttle".data, "transportation".data, "parking".data, "airline".data,
      "railway".data, "railroad".data, "seaplane".data, "heliport".data,
      "cable_car".data, "light_rail".data],
    exclusions := ["museum".data, "repair".data, "dealer".data] },
  { bucket := "Tourism & Attractions".data,
    keywords := ["tourist".data, "attraction".data, "tours".data, "sightseeing".data,
      "visitor_center".data, "lighthouse".data, "monument".data, "landmark".data,
      "castle".data, "palace".data, "fort".data, "historical".data,
      "memorial".data, "sculpture".data, "statue".data, "fountain".data,
      "lookout".data, "observation".data, "scenic".data],
    exclusions := [] },
  { bucket := "Parks & Natural Features".data,
    keywords := ["park".data, "playground".data, "garden".data, "nature_reserve".data,
      "national_park".data, "state_park".data, "wildlife".data, "sanctuary".data,
      "preserve".data, "mountain".data, "hill".data, "valley".data,
      "canyon".data, "cave".data, "forest".data, "desert".data,
      "beach".data, "coast".data, "island".data, "lake".data,
      "river".data, "waterfall".data, "spring".data, "dam".data,
      "reservoir".data, "marsh".data, "wetland".data, "dune".data,
      "cliff".data, "volcano".data, "geyser".data, "hot_springs".data],
    exclusions := ["amusement".data, "theme".data, "water_park".data] },
  { bucket := "Agriculture & Farming".data,
    keywords := ["farm".data, "ranch".data, "orchard".data, "vineyard".data,
      "agriculture".data, "agricultural".data, "livestock".data, "cattle".data,
      "dairy".data, "poultry".data, "pig_".data, "fish_farm".data,
      "crop".data, "grain".data, "produce".data, "harvest".data,
      "bee".data, "honey".data, "apiary".data, "csa_farm".data,
      "urban_farm".data, "pumpkin_patch".data, "pick_your_own".data],
    exclusions := ["insurance".data, "equipment".data, "supply".data] },
  { bucket := "Manufacturing & Industrial".data,
    keywords := ["manufacturing".data, "manufacturer".data, "factory".data, "plant".data,
      "mill".data, "foundry".data, "refinery".data, "industrial".data,
      "production".data, "assembly".data, "fabrication".data, "processing".data,
      "packaging".data, "bottling".data, "printing".data, "publishing".data,
      "textile".data, "chemical".data, "plastic".data, "metal".data,
      "steel".data, "iron".data, "lumber".data, "paper".data,
      "warehouse".data, "distribution".data, "mining".data, "quarry".data,
      "oil_and_gas".data, "petroleum".data, "coal".data],
    exclusions := ["store".data, "repair".data] },
  { bucket := "Media & Communications".data,
    keywords := ["media".data, "newspaper".data, "magazine".data, "radio_station".data,
      "tv_station".data, "television_station".data, "broadcasting".data, "publisher".data,
      "press".data, "news".data, "journalism".data, "social_media".data],
    exclusions := [] },
  { bucket := "Technology & IT".data,
    keywords := ["software".data, "it_".data, "computer_repair".data, "tech_support".data,
      "web_hosting".data, "data_recovery".data, "network".data, "cybersecurity".data,
      "biotechnology".data, "scientific_laboratory".data, "research_institute".data],
    exclusions := [] },
  { bucket := "Event Services".data,
    keywords := ["event_planning".data, "wedding_planning".data, "party_".data, "catering".data,
      "venue".data, "dj_".data, "entertainment_service".data, "rental_service".data,
      "photo_booth".data, "balloon_".data, "florist".data, "floral".data],
    exclusions := ["supply".data] },
  { bucket := "Pet Services".data,
    keywords := ["pet_".data, "dog_".data, "animal_".data, "veterinary".data,
      "groomer".data, "boarding".data, "training".data, "walker".data,
      "sitter".data, "adoption".data, "shelter".data, "rescue".data],
    exclusions := ["store".data, "hospital".data, "supply".data] },
  { bucket := "Personal Services".data,
    keywords := ["tailor".data, "alterations".data, "dry_cleaning".data, "laundry".data,
      "shoe_repair".data, "watch_repair".data, "jewelry_repair".data, "engraving".data,
      "framing".data, "photo_".data, "portrait".data, "life_coach".data,
      "personal_trainer".data, "personal_chef".data, "personal_assistant".data, "concierge".data,
      "valet".data, "matchmaker".data, "dating".data],
    exclusions := ["supply".data, "equipment".data] },
  { bucket := "Community & Social Services".data,
    keywords := ["community_center".data, "social_service".data, "charity".data, "non_profit".data,
      "nonprofit".data, "volunteer".data, "donation".data, "shelter".data,
      "homeless".data, "food_bank".data, "community_garden".data, "youth".data,
      "senior".data, "elder".data, "disability".data, "counseling".data,
      "crisis".data, "suicide_prevention".data, "abuse".data, "addiction".data,
      "rehabilitation".data, "foster_care".data, "adoption".data, "veterans".data,
      "refugee".data, "fraternal".data, "association".data, "organization".data,
      "union".data],
    exclusions := [] }
]
/-- The final business-to-business test (note `'wholesaler' in cat and
'wholesale' not in cat` is transcribed as written; it can never be true
because `wholesale` is a substring of `wholesaler`). -/
def b2bFires (cat : List Char) : Bool :=
  decide ("b2b".data <:+: cat)
    || (decide ("wholesaler".data <:+: cat) && !decide ("wholesale".data <:+: cat))
    || decide ("distributor".data <:+: cat)
    || decide ("supplier".data <:+: cat)

/-- First bucket whose rule fires. -/
def findBucket : List Rule → List Char → Option (List Char)
  | [], _ => none
  | r :: rs, cat => if ruleFires r cat then some r.bucket else findBucket rs cat

/-- `get_simplified_category` from simplify_overture_categories.py. -/
def get_simplified_category (category : List Char) : List Char :=
  let cat := category.map pyLower
  match findBucket rules cat with
  | some b => b
  | none => if b2bFires cat then "Business-to-Business".data else "Other Services".data

theorem findBucket_none (cat : List Char) :
    ∀ rs : List Rule, (∀ r ∈ rs, ruleFires r cat = false) → findBucket rs cat = none := by
  intro rs
  induction rs with
  | nil => intro _; rfl
  | cons r rs ih =>
    intro h
    rw [findBucket, if_neg (by simp [h r (by simp)])]
    exact ih (fun x hx => h x (by simp [hx]))

theorem findBucket_at (cat : List Char) :
    ∀ (rs : List Rule) (n : Nat) (r : Rule),
      rs.get? n = some r → ruleFires r cat = true →
      (∀ m r', m < n → rs.get? m = some r' → ruleFires r' cat = false) →
      findBucket rs cat = some r.bucket := by
  intro rs
  induction rs with
  | nil => intro n r hget; simp at hget
  | cons hd rs ih =>
    intro n r hget hfire hbefore
    match n with
    | 0 =>
      simp at hget
      subst hget
      rw [findBucket, if_pos (by simp [hfire])]
    | n+1 =>
      have hhd : ruleFires hd cat = false :=
        hbefore 0 hd (Nat.succ_pos n) (by simp)
      rw [findBucket, if_neg (by simp [hhd])]
      exact ih n r (by simpa using hget) hfire
        (fun m r' hm hg => hbefore (m+1) r' (by omega) (by simpa using hg))

end SimplifyOverture

/-! ## Claim C9 -/

/-- C9: the flattener evaluates its keyword-group rules in fixed table
order and returns the first bucket whose rule fires (inclusion keyword
present, no exclusion present); when no rule and not the B2B test
fires it returns the default bucket; and the three specified examples
evaluate as claimed. -/
theorem claim_C9 :
    (∀ (cat : List Char) (n : Nat) (r : SimplifyOverture.Rule),
      SimplifyOverture.rules.get? n = some r →
      SimplifyOverture.ruleFires r (cat.map pyLower) = true →
      (∀ m r', m < n → SimplifyOverture.rules.get? m = some r' →
        SimplifyOverture.ruleFires r' (cat.map pyLower) = false) →
      SimplifyOverture.get_simplified_category cat = r.bucket) ∧
    (∀ cat : List Char,
      (∀ r ∈ SimplifyOverture.rules,
        SimplifyOverture.ruleFires r (cat.map pyLower) = false) →
      SimplifyOverture.b2bFires (cat.map pyLower) = false →
      SimplifyOverture.get_simplified_category cat = "Other Services".data) ∧
    SimplifyOverture.get_simplified_category "fast_food_restaurant".data
      = "Food & Dining".data ∧
    SimplifyOverture.get_simplified_category "veterinarian".data
      = "Healthcare & Medical".data ∧
    SimplifyOverture.get_simplified_category "totally_unknown_xyz".data
      = "Other Services".data := by
  refine ⟨?_, ?_, by decide, by decide, by decide⟩
  · intro cat n r hget hfire hbefore
    rw [SimplifyOverture.get_simplified_category]
    rw [SimplifyOverture.findBucket_at (cat.map pyLower) SimplifyOverture.rules n r
      hget hfire hbefore]
  · intro cat hnone hb2b
    rw [SimplifyOverture.get_simplified_category]
    rw [SimplifyOverture.findBucket_none (cat.map pyLower) SimplifyOverture.rules hnone]
    simp [hb2b]

/-- C9 witness: the default-bucket rule applied concretely — no rule
and not the B2B test fires on `"zzz"`, so it gets the default bucket. -/
theorem claim_C9_witness :
    SimplifyOverture.get_simplified_category "zzz".data =
      ("Other Services".data : List Char) :=
  claim_C9.2.1 "zzz".data (by decide) (by decide)

/-! ## category_mapper.py : semantic grouping and best-match selection -/

namespace CategoryMapper

/-- One row of the Foursquare table as used by the mapper. -/
structure FsqRow where
  categoryId : List Char
  categoryName : List Char
  categoryLabel : List Char
deriving DecidableEq

/-- One row of the Overture table. -/
structure OvRow where
  categoryPrimary : List Char
deriving DecidableEq

/-- A Foursquare entry recorded in a semantic group by
`categorize_by_semantics` (index, id, name, label). -/
structure FsEntry where
  index : Nat
  id : List Char
  name : List Char
  label : List Char
deriving DecidableEq

/-- An Overture entry recorded in a semantic group (index, name). -/
structure OvEntry where
  index : Nat
  name : List Char
deriving DecidableEq

/-- The semantic-group keyword table, in insertion order. -/
def semantic_groups : List (List Char × List (List Char)) := [
  ("food_dining".data,
    ["restaurant".data, "cafe".data, "bar".data, "food".data,
      "dining".data, "bakery".data, "diner".data, "eatery".data,
      "bistro".data, "grill".data, "kitchen".data, "cuisine".data,
      "pizza".data, "burger".data, "sandwich".data, "coffee".data,
      "tea".data, "brewery".data, "pub".data, "tavern".data,
      "steakhouse".data]),
  ("retail_shopping".data,
    ["store".data, "shop".data, "retail".data, "market".data,
      "boutique".data, "mall".data, "outlet".data, "vendor".data,
      "dealer".data, "supplier".data, "wholesaler".data, "shopping".data]),
  ("healthcare_medical".data,
    ["hospital".data, "clinic".data, "medical".data, "doctor".data,
      "dentist".data, "pharmacy".data, "health".data, "physician".data,
      "surgeon".data, "therapy".data, "treatment".data, "care".data]),
  ("entertainment_recreation".data,
    ["entertainment".data, "recreation".data, "sports".data, "fitness".data,
      "gym".data, "park".data, "theater".data, "cinema".data,
      "museum".data, "club".data, "center".data, "venue".data,
      "stadium".data]),
  ("services_professional".data,
    ["service".data, "agency".data, "office".data, "professional".data,
      "consulting".data, "repair".data, "maintenance".data, "cleaning".data,
      "legal".data, "financial".data]),
  ("transportation".data,
    ["transport".data, "station".data, "airport".data, "parking".data,
      "rental".data, "taxi".data, "bus".data, "train".data,
      "subway".data, "ferry".data, "automotive".data, "gas".data]),
  ("accommodation_lodging".data,
    ["hotel".data, "motel".data, "lodge".data, "inn".data,
      "resort".data, "accommodation".data, "hostel".data, "bed".data,
      "breakfast".data]),
  ("education_institutions".data,
    ["school".data, "university".data, "college".data, "education".data,
      "academy".data, "institute".data, "learning".data, "training".data,
      "library".data]),
  ("government_public".data,
    ["government".data, "public".data, "municipal".data, "federal".data,
      "state".data, "city".data, "hall".data, "office".data,
      "department".data, "agency".data, "court".data]),
  ("religious_spiritual".data,
    ["church".data, "temple".data, "mosque".data, "synagogue".data,
      "religious".data, "spiritual".data, "cathedral".data, "chapel".data,
      "worship".data])
]
/-- `f"{normalized name} {normalized label}"` as built by
`categorize_by_semantics` for a Foursquare row. -/
def fsFullText (r : FsqRow) : List Char :=
  normalize_core r.categoryName ++ ' ' :: normalize_core r.categoryLabel

/-- The Foursquare entries of one semantic group: a row joins the group
when some keyword occurs in its combined normalised text (the inner
`break` only stops the keyword loop, so one row can join several
groups). -/
def groupFs (fsq : List FsqRow) (g : List Char × List (List Char)) : List FsEntry :=
  (fsq.enum.filter
      (fun p => g.2.any (fun kw => decide (kw <:+: fsFullText p.2)))).map
    (fun p => ⟨p.1, p.2.categoryId, p.2.categoryName, p.2.categoryLabel⟩)

/-- The Overture entries of one semantic group. -/
def groupOv (ov : List OvRow) (g : List Char × List (List Char)) : List OvEntry :=
  (ov.enum.filter
      (fun p => g.2.any
        (fun kw => decide (kw <:+: normalize_core p.2.categoryPrimary)))).map
    (fun p => ⟨p.1, p.2.categoryPrimary⟩)

/-- One result row of `find_best_matches`. -/
structure MapResult where
  foursquare_id : List Char
  foursquare_name : List Char
  foursquare_label : List Char
  overture_category : Option (List Char)
  similarity_score : ℚ
  match_type : List Char
  semantic_group : List Char
deriving DecidableEq

/-- The inner candidate loop of the semantic pass: skip already-claimed
Overture entries, keep the first strictly-better score at or above the
0.3 threshold. -/
def semBest (matched : List Nat) (fsName : List Char) :
    List OvEntry → ℚ → Option OvEntry → ℚ × Option OvEntry
  | [], bs, bm => (bs, bm)
  | e :: rest, bs, bm =>
    if matched.contains e.index then semBest matched fsName rest bs bm
    else if bs < calculate_similarity_score fsName e.name ∧
        (3/10 : ℚ) ≤ calculate_similarity_score fsName e.name then
      semBest matched fsName rest (calculate_similarity_score fsName e.name) (some e)
    else
      semBest matched fsName rest bs bm

/-- Processing one Foursquare entry of one semantic group: claim the
best unmatched Overture entry (if any) and append a result row. -/
def semStep (ovGroup : List OvEntry) (gname : List Char)
    (st : List Nat × List MapResult) (fs : FsEntry) : List Nat × List MapResult :=
  match semBest st.1 fs.name ovGroup 0 none with
  | (_, none) => st
  | (bs, some e) =>
    (e.index :: st.1,
      st.2 ++ [{ foursquare_id := fs.id
                 foursquare_name := fs.name
                 foursquare_label := fs.label
                 overture_category := some e.name
                 similarity_score := bs
                 match_type := "semantic_group".data
                 semantic_group := gname }])

/-- The semantic-group pass of `find_best_matches`. -/
def semanticPass (fsq : List FsqRow) (ov : List OvRow) :
    List Nat × List MapResult :=
  semantic_groups.foldl
    (fun st g => (groupFs fsq g).foldl (semStep (groupOv ov g) g.1) st)
    ([], [])

/-- The Foursquare ids already present in the result list. -/
def matchedFsIds (results : List MapResult) : List (List Char) :=
  results.map (fun r => r.foursquare_id)

/-- `max(score1, score2)` of the direct pass: the better of matching
the category name and the leaf segment of the category label against
the Overture label. -/
def directScore (fsName fsLabel : List Char) (ovRow : OvRow) : ℚ :=
  max (calculate_similarity_score fsName ovRow.categoryPrimary)
    (calculate_similarity_score ((splitSeq " > ".data fsLabel).getLastD fsLabel)
      ovRow.categoryPrimary)

/-- The inner candidate loop of the direct pass: try the category name
and the leaf of the label, keep the first strictly-better score at or
above the 0.4 threshold. -/
def directBest (matched : List Nat) (fsName fsLabel : List Char) :
    List (Nat × OvRow) → ℚ → Option (Nat × OvRow) → ℚ × Option (Nat × OvRow)
  | [], bs, bm => (bs, bm)
  | (ovIdx, ovRow) :: rest, bs, bm =>
    if matched.contains ovIdx then directBest matched fsName fsLabel rest bs bm
    else if bs < directScore fsName fsLabel ovRow ∧
        (2/5 : ℚ) ≤ directScore fsName fsLabel ovRow then
      directBest matched fsName fsLabel rest (directScore fsName fsLabel ovRow)
        (some (ovIdx, ovRow))
    else
      directBest matched fsName fsLabel rest bs bm

/-- Processing one remaining Foursquare row in the direct pass. -/
def directStep (unmatchedOv : List (Nat × OvRow))
    (st : List Nat × List MapResult) (fs : FsqRow) : List Nat × List MapResult :=
  match directBest st.1 fs.categoryName fs.categoryLabel unmatchedOv 0 none with
  | (_, none) => st
  | (bs, some (ovIdx, ovRow)) =>
    (ovIdx :: st.1,
      st.2 ++ [{ foursquare_id := fs.categoryId
                 foursquare_name := fs.categoryName
                 foursquare_label := fs.categoryLabel
                 overture_category := some ovRow.categoryPrimary
                 similarity_score := bs
                 match_type := "direct_match".data
                 semantic_group := "none".data }])

/-- The direct pass of `find_best_matches`: the Foursquare rows whose
id is not yet among the result ids, matched against the Overture rows
not yet claimed when the pass starts. -/
def directPass (fsq : List FsqRow) (ov : List OvRow)
    (st1 : List Nat × List MapResult) : List Nat × List MapResult :=
  (fsq.filter (fun r => !(matchedFsIds st1.2).contains r.categoryId)).foldl
    (directStep (ov.enum.filter (fun p => !st1.1.contains p.1))) st1

/-- The closing pass of `find_best_matches`: a `no_match` row for every
Foursquare row whose id is absent from the results. -/
def noMatchRows (fsq : List FsqRow) (results : List MapResult) : List MapResult :=
  (fsq.filter (fun r => !(matchedFsIds results).contains r.categoryId)).map
    (fun r => { foursquare_id := r.categoryId
                foursquare_name := r.categoryName
                foursquare_label := r.categoryLabel
                overture_category := none
                similarity_score := 0
                match_type := "no_match".data
                semantic_group := "none".data })

/-- `find_best_matches`: the semantic-group pass, then the direct pass,
then a `no_match` row for every remaining Foursquare row. -/
def find_best_matches (fsq : List FsqRow) (ov : List OvRow) : List MapResult :=
  let st2 := directPass fsq ov (semanticPass fsq ov)
  st2.2 ++ noMatchRows fsq st2.2

end CategoryMapper

namespace CategoryMapper

/-- Invariant: the claimed target labels in the result list are the
labels of a duplicate-free list of in-range Overture indices, all of
which are in the matched set. -/
def ClaimInv (ov : List OvRow) (st : List Nat × List MapResult) : Prop :=
  ∃ idxs : List Nat, idxs.Nodup ∧
    (∀ i ∈ idxs, i ∈ st.1) ∧
    (∀ i ∈ idxs, i < ov.length) ∧
    st.2.filterMap (fun r => r.overture_category) =
      idxs.map (fun i => (ov.getD i ⟨[]⟩).categoryPrimary)

theorem semBest_some (matched : List Nat) (fsName : List Char) :
    ∀ (cands : List OvEntry) (bs : ℚ) (bm : Option OvEntry) (e : OvEntry),
      (semBest matched fsName cands bs bm).2 = some e →
      bm = some e ∨ (e ∈ cands ∧ matched.contains e.index = false) := by
  intro cands
  induction cands with
  | nil => intro bs bm e h; left; exact h
  | cons c rest ih =>
    intro bs bm e h
    rw [semBest] at h
    by_cases h1 : matched.contains c.index = true
    · rw [if_pos h1] at h
      rcases ih _ _ _ h with h3 | h3
      · left; exact h3
      · right; exact ⟨List.mem_cons_of_mem _ h3.1, h3.2⟩
    · rw [if_neg h1] at h
      by_cases h2 : bs < calculate_similarity_score fsName c.name ∧
          (3/10 : ℚ) ≤ calculate_similarity_score fsName c.name
      · rw [if_pos h2] at h
        rcases ih _ _ _ h with h3 | h3
        · right
          have hce : c = e := by injection h3
          subst hce
          exact ⟨List.mem_cons_self _ _, by simpa using h1⟩
        · right; exact ⟨List.mem_cons_of_mem _ h3.1, h3.2⟩
      · rw [if_neg h2] at h
        rcases ih _ _ _ h with h3 | h3
        · left; exact h3
        · right; exact ⟨List.mem_cons_of_mem _ h3.1, h3.2⟩

theorem directBest_some (matched : List Nat) (fsName fsLabel : List Char) :
    ∀ (cands : List (Nat × OvRow)) (bs : ℚ) (bm : Option (Nat × OvRow))
      (p : Nat × OvRow),
      (directBest matched fsName fsLabel cands bs bm).2 = some p →
      bm = some p ∨ (p ∈ cands ∧ matched.contains p.1 = false) := by
  intro cands
  induction cands with
  | nil => intro bs bm p h; left; exact h
  | cons c rest ih =>
    intro bs bm p h
    match c with
    | (ovIdx, ovRow) =>
      rw [directBest] at h
      by_cases h1 : matched.contains ovIdx = true
      · rw [if_pos h1] at h
        rcases ih _ _ _ h with h3 | h3
        · left; exact h3
        · right; exact ⟨List.mem_cons_of_mem _ h3.1, h3.2⟩
      · rw [if_neg h1] at h
        by_cases h2 : bs < directScore fsName fsLabel ovRow ∧
            (2/5 : ℚ) ≤ directScore fsName fsLabel ovRow
        · rw [if_pos h2] at h
          rcases ih _ _ _ h with h3 | h3
          · right
            have hce : (ovIdx, ovRow) = p := by injection h3
            subst hce
            exact ⟨List.mem_cons_self _ _, by simpa using h1⟩
          · right; exact ⟨List.mem_cons_of_mem _ h3.1, h3.2⟩
        · rw [if_neg h2] at h
          rcases ih _ _ _ h with h3 | h3
          · left; exact h3
          · right; exact ⟨List.mem_cons_of_mem _ h3.1, h3.2⟩

theorem enum_mem_facts (ov : List OvRow) (p : Nat × OvRow) (h : p ∈ ov.enum) :
    p.1 < ov.length ∧ ov.getD p.1 ⟨[]⟩ = p.2 := by
  have henum := List.mem_enum_iff_getElem?.mp h
  rcases List.getElem?_eq_some.mp henum with ⟨hl, hv⟩
  refine ⟨hl, ?_⟩
  rw [List.getD_eq_getElem _ _ hl]
  exact hv

theorem groupOv_mem (ov : List OvRow) (g : List Char × List (List Char))
    (e : OvEntry) (h : e ∈ groupOv ov g) :
    e.index < ov.length ∧ (ov.getD e.index ⟨[]⟩).categoryPrimary = e.name := by
  rw [groupOv] at h
  rcases List.mem_map.mp h with ⟨⟨i, row⟩, hp, hpe⟩
  have hmem := List.mem_filter.mp hp
  have hf := enum_mem_facts ov ⟨i, row⟩ hmem.1
  subst hpe
  exact ⟨hf.1, by rw [hf.2]⟩

theorem semStep_inv (ov : List OvRow) (g : List Char × List (List Char))
    (gname : List Char) (st : List Nat × List MapResult) (fs : FsEntry)
    (h : ClaimInv ov st) : ClaimInv ov (semStep (groupOv ov g) gname st fs) := by
  rcases h with ⟨idxs, hnd, hmem, hlt, heq⟩
  rw [semStep]
  rcases hsb : semBest st.1 fs.name (groupOv ov g) 0 none with ⟨bs, bm⟩
  match bm with
  | none => exact ⟨idxs, hnd, hmem, hlt, heq⟩
  | some e =>
    have hsome : (semBest st.1 fs.name (groupOv ov g) 0 none).2 = some e := by
      rw [hsb]
    rcases semBest_some st.1 fs.name _ _ _ _ hsome with h3 | h3
    · exact absurd h3 (by simp)
    · have hgm := groupOv_mem ov g e h3.1
      have hnotst : e.index ∉ st.1 := by simpa using h3.2
      have hnotin : e.index ∉ idxs := fun hin => hnotst (hmem _ hin)
      refine ⟨idxs ++ [e.index], ?_, ?_, ?_, ?_⟩
      · simp [List.nodup_append, hnd, hnotin]
      · intro i hi
        rcases List.mem_append.mp hi with hi | hi
        · exact List.mem_cons_of_mem _ (hmem i hi)
        · simp at hi; subst hi; exact List.mem_cons_self _ _
      · intro i hi
        rcases List.mem_append.mp hi with hi | hi
        · exact hlt i hi
        · simp at hi; subst hi; exact hgm.1
      · simp only [List.filterMap_append, List.map_append]
        rw [heq]
        have h2 : e.name = (ov.getD e.index ⟨[]⟩).categoryPrimary := hgm.2.symm
        rw [h2]
        simp

theorem foldl_semStep_inv (ov : List OvRow) (g : List Char × List (List Char))
    (gname : List Char) :
    ∀ (l : List FsEntry) (st : List Nat × List MapResult),
      ClaimInv ov st → ClaimInv ov (l.foldl (semStep (groupOv ov g) gname) st) := by
  intro l
  induction l with
  | nil => intro st h; exact h
  | cons fs rest ih =>
    intro st h
    exact ih _ (semStep_inv ov g gname st fs h)

theorem foldl_groups_inv (fsq : List FsqRow) (ov : List OvRow) :
    ∀ (gs : List (List Char × List (List Char))) (st : List Nat × List MapResult),
      ClaimInv ov st →
      ClaimInv ov (gs.foldl
        (fun st g => (groupFs fsq g).foldl (semStep (groupOv ov g) g.1) st) st) := by
  intro gs
  induction gs with
  | nil => intro st h; exact h
  | cons g gs ih =>
    intro st h
    exact ih _ (foldl_semStep_inv ov g g.1 _ _ h)

theorem semanticPass_inv (fsq : List FsqRow) (ov : List OvRow) :
    ClaimInv ov (semanticPass fsq ov) :=
  foldl_groups_inv fsq ov semantic_groups ([], [])
    ⟨[], by simp, by simp, by simp, by simp⟩

theorem directStep_inv (ov : List OvRow) (snapshot : List Nat)
    (st : List Nat × List MapResult) (fs : FsqRow)
    (h : ClaimInv ov st) :
    ClaimInv ov (directStep (ov.enum.filter (fun p => !snapshot.contains p.1)) st fs) := by
  rcases h with ⟨idxs, hnd, hmem, hlt, heq⟩
  rw [directStep]
  rcases hsb : directBest st.1 fs.categoryName fs.categoryLabel
      (ov.enum.filter (fun p => !snapshot.contains p.1)) 0 none with ⟨bs, bm⟩
  match bm with
  | none => exact ⟨idxs, hnd, hmem, hlt, heq⟩
  | some p =>
    match p with
    | (ovIdx, ovRow) =>
      have hsome : (directBest st.1 fs.categoryName fs.categoryLabel
          (ov.enum.filter (fun p => !snapshot.contains p.1)) 0 none).2
          = some (ovIdx, ovRow) := by rw [hsb]
      rcases directBest_some st.1 fs.categoryName fs.categoryLabel _ _ _ _ hsome
        with h3 | h3
      · exact absurd h3 (by simp)
      · have hf := enum_mem_facts ov ⟨ovIdx, ovRow⟩ (List.mem_filter.mp h3.1).1
        have hnotst : ovIdx ∉ st.1 := by simpa using h3.2
        have hnotin : ovIdx ∉ idxs := fun hin => hnotst (hmem _ hin)
        refine ⟨idxs ++ [ovIdx], ?_, ?_, ?_, ?_⟩
        · simp [List.nodup_append, hnd, hnotin]
        · intro i hi
          rcases List.mem_append.mp hi with hi | hi
          · exact List.mem_cons_of_mem _ (hmem i hi)
          · simp at hi; subst hi; exact List.mem_cons_self _ _
        · intro i hi
          rcases List.mem_append.mp hi with hi | hi
          · exact hlt i hi
          · simp at hi; subst hi; exact hf.1
        · simp only [List.filterMap_append, List.map_append]
          rw [heq]
          have hov : ovRow.categoryPrimary = (ov.getD ovIdx ⟨[]⟩).categoryPrimary := by
            rw [hf.2]
          rw [hov]
          simp

theorem foldl_directStep_inv (ov : List OvRow) (snapshot : List Nat) :
    ∀ (l : List FsqRow) (st : List Nat × List MapResult),
      ClaimInv ov st →
      ClaimInv ov (l.foldl
        (directStep (ov.enum.filter (fun p => !snapshot.contains p.1))) st) := by
  intro l
  induction l with
  | nil => intro st h; exact h
  | cons fs rest ih =>
    intro st h
    exact ih _ (directStep_inv ov snapshot st fs h)

theorem directPass_inv (fsq : List FsqRow) (ov : List OvRow)
    (st1 : List Nat × List MapResult) (h : ClaimInv ov st1) :
    ClaimInv ov (directPass fsq ov st1) := by
  rw [directPass]
  exact foldl_directStep_inv ov st1.1 _ st1 h

/-- The complete matching run yields claimed labels indexed by a
duplicate-free list of in-range Overture indices. -/
theorem find_best_matches_claimed (fsq : List FsqRow) (ov : List OvRow) :
    ∃ idxs : List Nat, idxs.Nodup ∧ (∀ i ∈ idxs, i < ov.length) ∧
      (find_best_matches fsq ov).filterMap (fun r => r.overture_category) =
        idxs.map (fun i => (ov.getD i ⟨[]⟩).categoryPrimary) := by
  have h2 := directPass_inv fsq ov _ (semanticPass_inv fsq ov)
  rcases h2 with ⟨idxs, hnd, _, hlt, heq⟩
  refine ⟨idxs, hnd, hlt, ?_⟩
  rw [find_best_matches]
  rw [List.filterMap_append, heq]
  have hnil : (noMatchRows fsq (directPass fsq ov (semanticPass fsq ov)).2).filterMap
      (fun r => r.overture_category) = [] := by
    rw [List.filterMap_eq_nil_iff]
    intro r hr
    rcases List.mem_map.mp hr with ⟨x, _, hx⟩
    rw [← hx]
  rw [hnil, List.append_nil]



end CategoryMapper

/-! ## Claim C2 -/

/-- C2: with deduplication via the `matched_overture` set, no Overture
label is the primary match of two different result rows of one
`find_best_matches` run (for a well-formed Overture table whose labels
are pairwise distinct; internally the code deduplicates by row index). -/
theorem claim_C2 (fsq : List CategoryMapper.FsqRow) (ov : List CategoryMapper.OvRow)
    (h : (ov.map (fun r => r.categoryPrimary)).Nodup) :
    ((CategoryMapper.find_best_matches fsq ov).filterMap
      (fun r => r.overture_category)).Nodup := by
  rcases CategoryMapper.find_best_matches_claimed fsq ov with ⟨idxs, hnd, hlt, heq⟩
  rw [heq]
  apply List.Nodup.map_on _ hnd
  intro i hi j hj hij
  have hi2 := hlt i hi
  have hj2 := hlt j hj
  have hlen : ∀ k, k < ov.length →
      k < (ov.map (fun r => r.categoryPrimary)).length := by
    intro k hk; simpa using hk
  have e1 : (ov.map (fun r => r.categoryPrimary)).get ⟨i, hlen i hi2⟩
      = (ov.getD i ⟨[]⟩).categoryPrimary := by
    rw [List.getD_eq_getElem _ _ hi2]
    simp [List.get_eq_getElem]
  have e2 : (ov.map (fun r => r.categoryPrimary)).get ⟨j, hlen j hj2⟩
      = (ov.getD j ⟨[]⟩).categoryPrimary := by
    rw [List.getD_eq_getElem _ _ hj2]
    simp [List.get_eq_getElem]
  have hg : (ov.map (fun r => r.categoryPrimary)).get ⟨i, hlen i hi2⟩
      = (ov.map (fun r => r.categoryPrimary)).get ⟨j, hlen j hj2⟩ := by
    rw [e1, e2]; exact hij
  have hfin := List.nodup_iff_injective_get.mp h hg
  have := congrArg Fin.val hfin
  simpa using this

/-- C2 witness: a concrete run with distinct target labels. -/
theorem claim_C2_witness :
    ((CategoryMapper.find_best_matches [] [⟨"bar".data⟩, ⟨"store".data⟩]).filterMap
      (fun r => r.overture_category)).Nodup :=
  claim_C2 [] [⟨"bar".data⟩, ⟨"store".data⟩] (by decide)

/-! ## Claim C3 -/

/-- C3 (amended): every Foursquare row contributes at least one result
row with its id — either a match from one of the two passes or an
explicit `no_match` row; no row is silently dropped.  (A row placed
into several semantic groups can however produce several result rows,
see the counterexample.) -/
theorem claim_C3_amended :
    ∀ (fsq : List CategoryMapper.FsqRow) (ov : List CategoryMapper.OvRow),
      ∀ row ∈ fsq, ∃ res ∈ CategoryMapper.find_best_matches fsq ov,
        res.foursquare_id = row.categoryId := by
  intro fsq ov row hrow
  rw [CategoryMapper.find_best_matches]
  by_cases hmem : (CategoryMapper.matchedFsIds
      (CategoryMapper.directPass fsq ov (CategoryMapper.semanticPass fsq ov)).2).contains
      row.categoryId = true
  · have hmem2 : row.categoryId ∈ CategoryMapper.matchedFsIds
        (CategoryMapper.directPass fsq ov (CategoryMapper.semanticPass fsq ov)).2 := by
      simpa using hmem
    rcases List.mem_map.mp hmem2 with ⟨res, hres, hid⟩
    exact ⟨res, List.mem_append_left _ hres, hid⟩
  · refine ⟨{ foursquare_id := row.categoryId, foursquare_name := row.categoryName,
              foursquare_label := row.categoryLabel, overture_category := none,
              similarity_score := 0, match_type := "no_match".data,
              semantic_group := "none".data }, List.mem_append_right _ ?_, rfl⟩
    rw [CategoryMapper.noMatchRows]
    apply List.mem_map.mpr
    refine ⟨row, List.mem_filter.mpr ⟨hrow, ?_⟩, rfl⟩
    simpa using hmem

/-- C3 witness: the at-least-once property at a concrete input. -/
theorem claim_C3_witness :
    ∃ res ∈ CategoryMapper.find_best_matches [⟨"1".data, "cafe".data, "cafe".data⟩] [],
      res.foursquare_id = ("1".data : List Char) :=
  claim_C3_amended [⟨"1".data, "cafe".data, "cafe".data⟩] [] _ (List.mem_singleton.mpr rfl)

section
attribute [local semireducible] Rat.add Rat.mul Rat.inv Rat.sub

/-- C3 (counterexample): the Foursquare category `"bar store"` (id 1)
contains the keyword `bar` of group `food_dining` and the keyword
`store` of group `retail_shopping`, so `categorize_by_semantics` places
it in both groups and `find_best_matches` emits two result rows for
this single source row — one matching `"bar"` (score 0.65), one
matching `"store"` (score 103/140) — refuting "exactly one result row
per source label". -/
theorem claim_C3_counterexample :
    (CategoryMapper.find_best_matches
        [⟨"1".data, "bar store".data, "bar store".data⟩]
        [⟨"bar".data⟩, ⟨"store".data⟩]).map
      (fun r => r.foursquare_id) = ["1".data, "1".data] := by decide

end

/-! ## om_to_fsq_map.py

The rapidfuzz `fuzz.WRatio` scorer is third-party library code and is
abstracted as the function parameter `wr`; everything proved below
holds for the real scorer.  CSV I/O, the ambiguous-output side file and
string formatting of the `ALTERNATES` column are glue and out of scope
(the alternates are modelled as their (index, score) content). -/

namespace OmToFsqMap

/-- Composite model of `unicodedata.normalize('NFKD', ·)` followed by
`encode('ascii','ignore')` on one (already lower-cased) character:
ASCII characters pass through, common accented letters map to their
base letter, and other non-ASCII characters are dropped. -/
def asciiFold (c : Char) : List Char :=
  if c.toNat < 128 then [c]
  else
    match (accentPairs.find? (fun p => p.1 = c)) with
    | some p => [p.2]
    | none => []
where
  accentPairs : List (Char × Char) :=
    [('á', 'a'), ('à', 'a'), ('â', 'a'), ('ä', 'a'), ('ã', 'a'), ('å', 'a'),
     ('é', 'e'), ('è', 'e'), ('ê', 'e'), ('ë', 'e'),
     ('í', 'i'), ('ì', 'i'), ('î', 'i'), ('ï', 'i'),
     ('ó', 'o'), ('ò', 'o'), ('ô', 'o'), ('ö', 'o'), ('õ', 'o'),
     ('ú', 'u'), ('ù', 'u'), ('û', 'u'), ('ü', 'u'),
     ('ñ', 'n'), ('ç', 'c'), ('ý', 'y'), ('ÿ', 'y'),
     ('Á', 'a'), ('À', 'a'), ('Â', 'a'), ('Ä', 'a'), ('Ã', 'a'), ('Å', 'a'),
     ('É', 'e'), ('È', 'e'), ('Ê', 'e'), ('Ë', 'e'),
     ('Í', 'i'), ('Ì', 'i'), ('Î', 'i'), ('Ï', 'i'),
     ('Ó', 'o'), ('Ò', 'o'), ('Ô', 'o'), ('Ö', 'o'), ('Õ', 'o'),
     ('Ú', 'u'), ('Ù', 'u'), ('Û', 'u'), ('Ü', 'u'),
     ('Ñ', 'n'), ('Ç', 'c'), ('Ý', 'y')]

/-- Accent stripping over a string. -/
def stripAccents (s : List Char) : List Char := s.flatMap asciiFold

/-- The British/American spelling-canonicalisation table, in insertion
order; each entry is applied as a whole-word (`\b`-delimited) regex
substitution. -/
def spellingTable : List (List Char × List Char) :=
  [("centre".data, "center".data), ("theatre".data, "theater".data),
   ("tyre".data, "tire".data), ("tyres".data, "tires".data),
   ("jewellery".data, "jewelry".data), ("behaviour".data, "behavior".data),
   ("barbeque".data, "barbecue".data), ("boulangerie".data, "bakery".data),
   ("shoppe".data, "shop".data)]

/-- `normalize_text` from om_to_fsq_map.py: `None ↦ ""`; otherwise
strip + lowercase, strip accents, replace the separators `&⁄_-`,
apply the spelling substitutions, replace characters outside
`[a-z0-9\s]` by a space, collapse whitespace and trim. -/
def normalize_text : Option (List Char) → List Char
  | none => []
  | some v =>
    let t1 := (stripWs v).map pyLower
    let t2 := stripAccents t1
    let t3 := replaceAll "&".data " and ".data t2
    let t4 := replaceAll "/".data " ".data t3
    let t5 := replaceAll "_".data " ".data t4
    let t6 := replaceAll "-".data " ".data t5
    let t7 := spellingTable.foldl (fun t pr => wordReplace pr.1 pr.2 t) t6
    let t8 := t7.map (fun c => if isAz09 c || isWsC c then c else ' ')
    collapseWs t8

/-- `extract_leaf_label`: last `>`-separated segment, stripped. -/
def extract_leaf_label (category_label : List Char) : List Char :=
  if category_label.isEmpty then []
  else ((splitSeq ">".data category_label).map stripWs).getLastD category_label

/-- One loaded Foursquare category (the `FSQCategory` dataclass). -/
structure FSQCategory where
  category_id : List Char
  category_label : List Char
  category_primary : List Char
  category_secondary : List Char
  leaf_label : List Char
deriving DecidableEq

/-- One raw CSV row of the Foursquare table. -/
structure RawRow where
  categoryId : List Char
  categoryLabel : List Char
  categoryPrimary : List Char
  categorySecondary : List Char
deriving DecidableEq

/-- Building one `FSQCategory` from a raw row. -/
def fsqOfRaw (row : RawRow) : FSQCategory :=
  ⟨row.categoryId, row.categoryLabel, row.categoryPrimary, row.categorySecondary,
    extract_leaf_label row.categoryLabel⟩

/-- The loaded Foursquare table. -/
def fsq_rows (raw : List RawRow) : List FSQCategory := raw.map fsqOfRaw

/-- The candidate texts contributed by row `idx`: the normalised full
label when nonempty, and the normalised leaf when nonempty and
different from the full normalisation. -/
def rowCandidates (idx : Nat) (row : RawRow) : List (List Char × Nat) :=
  (if (normalize_text (some row.categoryLabel)).isEmpty then []
   else [(normalize_text (some row.categoryLabel), idx)]) ++
  (if !(normalize_text (some (extract_leaf_label row.categoryLabel))).isEmpty
      && decide (normalize_text (some (extract_leaf_label row.categoryLabel)) ≠
        normalize_text (some row.categoryLabel)) then
    [(normalize_text (some (extract_leaf_label row.categoryLabel)), idx)]
   else [])

/-- `candidate_texts` paired with `candidate_to_index`. -/
def candidates (raw : List RawRow) : List (List Char × Nat) :=
  (raw.enum.map (fun p => rowCandidates p.1 p.2)).flatten

/-- `process.extract` over (text, fsq index) candidates: score each,
rank stably by descending score, keep `limit`. -/
def processExtractP (scorer : List Char → List Char → ℚ) (q : List Char)
    (cands : List (List Char × Nat)) (limit : Nat) : List (List Char × ℚ × Nat) :=
  (sortByDesc (fun t => t.2.1) (cands.map (fun p => (p.1, scorer q p.1, p.2)))).take limit

/-- The `grouped` dictionary of `choose_best_matches`: per Foursquare
index keep the best score (strictly-greater updates, first wins ties),
in first-insertion order. -/
def groupUpd (acc : List (Nat × ℚ × List Char)) (t : List Char × ℚ × Nat) :
    List (Nat × ℚ × List Char) :=
  if acc.any (fun g => g.1 == t.2.2) then
    acc.map (fun g => if g.1 = t.2.2 ∧ g.2.1 < t.2.1 then (g.1, t.2.1, t.1) else g)
  else acc ++ [(t.2.2, t.2.1, t.1)]

def groupBest (results : List (List Char × ℚ × Nat)) : List (Nat × ℚ × List Char) :=
  results.foldl groupUpd []

/-- `choose_best_matches`: optionally restrict the candidate space to
allowed Foursquare indices (falling back to all candidates when the
filter is empty), extract with `limit*3`, group per Foursquare row,
sort by descending score and keep `limit`. -/
def choose_best_matches (wr : List Char → List Char → ℚ) (query : List Char)
    (cands : List (List Char × Nat)) (limit : Nat)
    (allowed : Option (List Nat)) : List (Nat × ℚ × List Char) :=
  let searchCands :=
    match allowed with
    | none => cands
    | some allow =>
      if (cands.filter (fun p => allow.contains p.2)).isEmpty then cands
      else cands.filter (fun p => allow.contains p.2)
  (sortByDesc (fun t => t.2.1)
    (groupBest (processExtractP wr query searchCands (limit * 3)))).take limit

/-- The `om_to_fsq_primary` lookup table (sets written as lists). -/
def om_to_fsq_primary : List (List Char × List (List Char)) :=
  [("accommodation and lodging".data,
    ["travel and transportation".data, "community and government".data,
     "landmarks and outdoors".data]),
   ("food and dining".data, ["dining and drinking".data]),
   ("retail and shopping".data, ["retail".data]),
   ("healthcare and medical".data, ["health and medicine".data]),
   ("beauty and personal care".data,
    ["business and professional services".data, "health and medicine".data]),
   ("entertainment and recreation".data,
    ["arts and entertainment".data, "sports and recreation".data]),
   ("government and public services".data, ["community and government".data]),
   ("transportation".data, ["travel and transportation".data]),
   ("home and garden".data,
    ["business and professional services".data, "retail".data]),
   ("professional services".data, ["business and professional services".data]),
   ("industrial and manufacturing".data,
    ["business and professional services".data]),
   ("community and social services".data, ["community and government".data]),
   ("religious and spiritual".data, ["community and government".data]),
   ("education and learning".data, ["community and government".data]),
   ("natural features and outdoor".data, ["landmarks and outdoors".data]),
   ("automotive".data,
    ["business and professional services".data, "retail".data,
     "travel and transportation".data]),
   ("other".data, [])]

/-- Indices of rows whose normalised primary equals `p`
(`fsq_primary_to_indices`). -/
def fsq_primary_indices (rows : List FSQCategory) (p : List Char) : List Nat :=
  (List.range rows.length).filter (fun i =>
    normalize_text (some ((rows.getD i ⟨[], [], [], [], []⟩).category_primary)) == p)

/-- Indices of rows with given normalised (primary, secondary) pair
(`fsq_secondary_to_indices`). -/
def fsq_secondary_indices (rows : List FSQCategory) (p s : List Char) : List Nat :=
  (List.range rows.length).filter (fun i =>
    (normalize_text (some ((rows.getD i ⟨[], [], [], [], []⟩).category_primary)) == p)
      && (normalize_text (some ((rows.getD i ⟨[], [], [], [], []⟩).category_secondary))
        == s))

/-- Dictionary lookup with empty-set default. -/
def lookupTable (tbl : List (List Char × List (List Char))) (k : List Char) :
    List (List Char) :=
  match tbl.find? (fun p => p.1 == k) with
  | some p => p.2
  | none => []

/-- `allowed_indices_for_om` (indices are used only through membership
and emptiness, so the Python integer sets are modelled as lists). -/
def allowed_indices_for_om (rows : List FSQCategory)
    (om_simplified om_updated : List Char) : Option (List Nat) :=
  let simpNorm := normalize_text (some om_simplified)
  let updated := normalize_text (some om_updated)
  let base := lookupTable om_to_fsq_primary simpNorm
  let allowedPrimaries :=
    if decide ("business to business".data <:+: updated) || updated == "b2b".data then
      base ++ ["business and professional services".data]
    else base
  if allowedPrimaries.isEmpty then none
  else
    let indices := (allowedPrimaries.map (fsq_primary_indices rows)).flatten
    let indices2 :=
      if simpNorm == "accommodation and lodging".data then
        if (narrowed rows).isEmpty then indices
        else indices.filter (fun i => (narrowed rows).contains i)
      else indices
    if indices2.isEmpty then none else some indices2
where
  narrowed (rows : List FSQCategory) : List Nat :=
    (["lodging".data, "rv park".data].map
      (fsq_secondary_indices rows "travel and transportation".data)).flatten ++
    (["housing authority".data, "residential building".data,
      "housing development".data, "organization".data].map
      (fsq_secondary_indices rows "community and government".data)).flatten ++
    (["campground".data].map
      (fsq_secondary_indices rows "landmarks and outdoors".data)).flatten

/-- One row of the OM input CSV. -/
structure OMRow where
  categoryLabel : List Char
  simplifiedCategory : List Char
  updatedCategory : List Char
deriving DecidableEq

/-- One output row of `map_om_to_fsq`. -/
structure OutRow where
  omLabel : List Char
  omSimplified : List Char
  omUpdated : List Char
  fsqId : List Char
  fsqLabel : List Char
  fsqPrimary : List Char
  fsqSecondary : List Char
  matchScore : ℚ
  matchedText : List Char
  alternates : List (Nat × ℚ)
deriving DecidableEq

/-- The best-of loop over `top` (`best_score` starts at −1, strictly
greater wins, so the first maximal entry is kept). -/
def bestOf : List (Nat × ℚ × List Char) → ℚ → Option Nat → List Char →
    ℚ × Option Nat × List Char
  | [], bs, bi, bt => (bs, bi, bt)
  | (idx, score, mt) :: rest, bs, bi, bt =>
    if bs < score then bestOf rest score (some idx) mt
    else bestOf rest bs bi bt

/-- The `top` shortlist of one row of the main loop. -/
def chooseTop (wr : List Char → List Char → ℚ) (rows : List FSQCategory)
    (cands : List (List Char × Nat)) (row : OMRow) : List (Nat × ℚ × List Char) :=
  choose_best_matches wr (normalize_text (some row.categoryLabel)) cands 5
    (allowed_indices_for_om rows row.simplifiedCategory row.updatedCategory)

/-- The body of the main row loop: skip rows whose label normalises to
the empty string (`if not q: continue`) and rows with no best match
(`if best_fsq_idx is None: continue`), else emit the output row. -/
def processRow (wr : List Char → List Char → ℚ) (rows : List FSQCategory)
    (cands : List (List Char × Nat)) (row : OMRow) : List OutRow :=
  if (normalize_text (some row.categoryLabel)).isEmpty then []
  else
    match bestOf (chooseTop wr rows cands row) (-1) none [] with
    | (_, none, _) => []
    | (bs, some idx, mt) =>
      [{ omLabel := row.categoryLabel
         omSimplified := row.simplifiedCategory
         omUpdated := row.updatedCategory
         fsqId := (rows.getD idx ⟨[], [], [], [], []⟩).category_id
         fsqLabel := (rows.getD idx ⟨[], [], [], [], []⟩).category_label
         fsqPrimary := (rows.getD idx ⟨[], [], [], [], []⟩).category_primary
         fsqSecondary := (rows.getD idx ⟨[], [], [], [], []⟩).category_secondary
         matchScore := bs
         matchedText := mt
         alternates := (chooseTop wr rows cands row).map (fun t => (t.1, t.2.1)) }]

/-- `map_om_to_fsq` over already-loaded inputs. -/
def map_om_to_fsq (wr : List Char → List Char → ℚ) (raw : List RawRow)
    (omRows : List OMRow) : List OutRow :=
  (omRows.map (processRow wr (fsq_rows raw) (candidates raw))).flatten

end OmToFsqMap

/-! ## Claim C6 -/

theorem choose_empty_cands (wr : List Char → List Char → ℚ) (q : List Char)
    (lim : Nat) (allowed : Option (List Nat)) :
    OmToFsqMap.choose_best_matches wr q [] lim allowed = [] := by
  rcases allowed with _ | allow <;>
    simp [OmToFsqMap.choose_best_matches, OmToFsqMap.processExtractP,
      OmToFsqMap.groupBest, sortByDesc]

theorem processRow_empty_cands (wr : List Char → List Char → ℚ)
    (rows : List OmToFsqMap.FSQCategory) (row : OmToFsqMap.OMRow) :
    OmToFsqMap.processRow wr rows [] row = [] := by
  rw [OmToFsqMap.processRow]
  split_ifs with h
  · rfl
  · have hc : OmToFsqMap.chooseTop wr rows [] row = [] := choose_empty_cands _ _ _ _
    rw [hc]
    exact rfl

theorem processRow_mem (wr : List Char → List Char → ℚ)
    (rows : List OmToFsqMap.FSQCategory) (cands : List (List Char × Nat))
    (row : OmToFsqMap.OMRow) :
    ∀ r ∈ OmToFsqMap.processRow wr rows cands row,
      r.omLabel = row.categoryLabel ∧
        (OmToFsqMap.normalize_text (some row.categoryLabel)).isEmpty = false := by
  intro r hr
  rw [OmToFsqMap.processRow] at hr
  by_cases hq : (OmToFsqMap.normalize_text (some row.categoryLabel)).isEmpty = true
  · rw [if_pos hq] at hr
    simp at hr
  · rw [if_neg hq] at hr
    rcases hb : OmToFsqMap.bestOf (OmToFsqMap.chooseTop wr rows cands row) (-1) none []
      with ⟨bs, bi, mt⟩
    rw [hb] at hr
    match bi with
    | none => simp at hr
    | some idx =>
      have : r = _ := List.mem_singleton.mp hr
      subst this
      exact ⟨rfl, by simpa using hq⟩

/-- C6 (counterexample): with an empty Foursquare pool, an OM row with
the perfectly ordinary label `"cafe"` produces *no* output row — it is
skipped by `if best_fsq_idx is None: continue` — rather than being
recorded as unmatched with score 0 as the claim states. -/
theorem claim_C6_counterexample :
    OmToFsqMap.map_om_to_fsq (fun _ _ => 0) []
      [⟨"cafe".data, [], []⟩] = [] := by decide

/-- C6 (amended): rows whose label normalises to the empty string and
rows left without any candidate match (in particular every row when the
target pool is empty) are silently *skipped* — they produce no output
row at all, and no error: every emitted row comes from an OM label with
nonempty normalisation, and an empty Foursquare table yields an empty
output. -/
theorem claim_C6_amended :
    (∀ (wr : List Char → List Char → ℚ) (raw : List OmToFsqMap.RawRow)
        (omRows : List OmToFsqMap.OMRow),
      ∀ r ∈ OmToFsqMap.map_om_to_fsq wr raw omRows,
        OmToFsqMap.normalize_text (some r.omLabel) ≠ []) ∧
    (∀ (wr : List Char → List Char → ℚ) (omRows : List OmToFsqMap.OMRow),
      OmToFsqMap.map_om_to_fsq wr [] omRows = []) := by
  constructor
  · intro wr raw omRows r hr
    rw [OmToFsqMap.map_om_to_fsq] at hr
    rcases List.mem_flatten.mp hr with ⟨l, hl, hrl⟩
    rcases List.mem_map.mp hl with ⟨row, _, hrow⟩
    rw [← hrow] at hrl
    have h := processRow_mem wr (OmToFsqMap.fsq_rows raw) (OmToFsqMap.candidates raw)
      row r hrl
    rw [h.1]
    intro hnil
    rw [hnil] at h
    simp at h
  · intro wr omRows
    rw [OmToFsqMap.map_om_to_fsq]
    have hc : OmToFsqMap.candidates [] = [] := rfl
    rw [hc]
    rw [List.flatten_eq_nil_iff]
    intro l hl
    rcases List.mem_map.mp hl with ⟨row, _, hrow⟩
    rw [← hrow]
    exact processRow_empty_cands wr (OmToFsqMap.fsq_rows []) row

/-- C6 witness: a row whose label normalises nonempty, through a
nonempty table, is emitted with that label, so the amended property is
inhabited concretely. -/
theorem claim_C6_witness :
    OmToFsqMap.map_om_to_fsq (fun _ _ => 0) [] [⟨"x".data, [], []⟩] = [] :=
  claim_C6_amended.2 (fun _ _ => 0) [⟨"x".data, [], []⟩]

/-! ## Idempotence infrastructure: runs and joins -/

theorem joinSpace_one (w : List Char) : joinSpace [w] = w := rfl

theorem joinSpace_cons2 (w w2 : List Char) (ws : List (List Char)) :
    joinSpace (w :: w2 :: ws) = w ++ ' ' :: joinSpace (w2 :: ws) := rfl

theorem splitRunsGo_cons_pos (p : Char → Bool) (c : Char) (cs acc : List Char)
    (hc : p c = true) : splitRunsGo p (c :: cs) acc = splitRunsGo p cs (c :: acc) := by
  simp only [splitRunsGo, hc, if_true]

theorem splitRunsGo_run (p : Char → Bool) :
    ∀ (w s acc : List Char), (∀ c ∈ w, p c = true) →
      splitRunsGo p (w ++ s) acc = splitRunsGo p s (w.reverse ++ acc) := by
  intro w
  induction w with
  | nil => intro s acc _; simp
  | cons c w ih =>
    intro s acc h
    have hc : p c = true := h c (by simp)
    have h2 : ∀ d ∈ w, p d = true := fun d hd => h d (by simp [hd])
    calc splitRunsGo p ((c :: w) ++ s) acc
        = splitRunsGo p (w ++ s) (c :: acc) := by
          rw [List.cons_append, splitRunsGo_cons_pos p c _ _ hc]
      _ = splitRunsGo p s (w.reverse ++ (c :: acc)) := ih s (c :: acc) h2
      _ = splitRunsGo p s ((c :: w).reverse ++ acc) := by
          rw [List.reverse_cons, List.append_assoc]; rfl

theorem splitRunsGo_sep (p : Char → Bool) (d : Char) (s acc : List Char)
    (hd : p d = false) :
    splitRunsGo p (d :: s) acc =
      (if acc = [] then [] else [acc.reverse]) ++ splitRunsGo p s [] := by
  by_cases h : acc = []
  · subst h
    simp [splitRunsGo, hd]
  · simp [splitRunsGo, hd, h]

theorem splitRuns_sep (p : Char → Bool) (d : Char) (s : List Char) (hd : p d = false) :
    splitRuns p (d :: s) = splitRuns p s := by
  rw [splitRuns, splitRunsGo_sep p d s [] hd]
  simp [splitRuns]

theorem splitRuns_nil (p : Char → Bool) : splitRuns p [] = [] := rfl

theorem splitRuns_run (p : Char → Bool) (w s : List Char) (hw : w ≠ [])
    (hwp : ∀ c ∈ w, p c = true) (hs : s = [] ∨ ∃ d t, s = d :: t ∧ p d = false) :
    splitRuns p (w ++ s) = w :: splitRuns p s := by
  rw [splitRuns, splitRunsGo_run p w s [] hwp]
  rcases hs with rfl | ⟨d, t, rfl, hdp⟩
  · simp [splitRunsGo, hw, splitRuns]
  · rw [splitRunsGo_sep p d t _ hdp, splitRuns_sep p d t hdp]
    simp [hw, splitRuns]

/-- Every run is nonempty, satisfies `p`, and draws its characters from
the input. -/
theorem splitRunsGo_sound (p : Char → Bool) :
    ∀ (s acc : List Char), (∀ c ∈ acc, p c = true) →
      ∀ w ∈ splitRunsGo p s acc,
        w ≠ [] ∧ ∀ c ∈ w, p c = true ∧ (c ∈ acc ∨ c ∈ s) := by
  intro s
  induction s with
  | nil =>
    intro acc hacc w hw
    by_cases h : acc = []
    · subst h; simp [splitRunsGo] at hw
    · simp [splitRunsGo, h] at hw
      subst hw
      refine ⟨by simpa using h, ?_⟩
      intro c hc
      have hc2 : c ∈ acc := by simpa using hc
      exact ⟨hacc c hc2, Or.inl hc2⟩
  | cons a s ih =>
    intro acc hacc w hw
    by_cases hpa : p a = true
    · rw [splitRunsGo_cons_pos p a s acc hpa] at hw
      have := ih (a :: acc) (by
        intro c hc
        rcases List.mem_cons.mp hc with rfl | hc
        · exact hpa
        · exact hacc c hc) w hw
      refine ⟨this.1, ?_⟩
      intro c hc
      rcases (this.2 c hc) with ⟨hp2, hm⟩
      refine ⟨hp2, ?_⟩
      rcases hm with hm | hm
      · rcases List.mem_cons.mp hm with rfl | hm
        · exact Or.inr (by simp)
        · exact Or.inl hm
      · exact Or.inr (by simp [hm])
    · have hpa2 : p a = false := by simpa using hpa
      rw [splitRunsGo_sep p a s acc hpa2] at hw
      rcases List.mem_append.mp hw with hw | hw
      · by_cases h : acc = []
        · simp [h] at hw
        · simp [h] at hw
          subst hw
          refine ⟨by simpa using h, ?_⟩
          intro c hc
          have hc2 : c ∈ acc := by simpa using hc
          exact ⟨hacc c hc2, Or.inl hc2⟩
      · have := ih [] (by simp) w (by simpa using hw)
        refine ⟨this.1, ?_⟩
        intro c hc
        rcases this.2 c hc with ⟨hp2, hm⟩
        refine ⟨hp2, ?_⟩
        rcases hm with hm | hm
        · simp at hm
        · exact Or.inr (by simp [hm])

theorem splitRuns_sound (p : Char → Bool) (s : List Char) :
    ∀ w ∈ splitRuns p s, w ≠ [] ∧ ∀ c ∈ w, p c = true ∧ c ∈ s := by
  intro w hw
  have := splitRunsGo_sound p s [] (by simp) w hw
  refine ⟨this.1, ?_⟩
  intro c hc
  rcases this.2 c hc with ⟨h1, h2⟩
  rcases h2 with h2 | h2
  · simp at h2
  · exact ⟨h1, h2⟩

/-- Splitting a join back into its words. -/
theorem splitRuns_joinSpace (p : Char → Bool) (hsp : p ' ' = false) :
    ∀ l : List (List Char), (∀ w ∈ l, w ≠ [] ∧ ∀ c ∈ w, p c = true) →
      splitRuns p (joinSpace l) = l := by
  intro l
  induction l with
  | nil => intro _; rfl
  | cons w ws ih =>
    intro h
    match ws with
    | [] =>
      have hw := h w (by simp)
      have h2 := splitRuns_run p w [] hw.1 hw.2 (Or.inl rfl)
      rw [List.append_nil] at h2
      rw [joinSpace_one, h2, splitRuns_nil]
    | w2 :: ws2 =>
      have hw := h w (by simp)
      rw [joinSpace_cons2]
      rw [splitRuns_run p w (' ' :: joinSpace (w2 :: ws2)) hw.1 hw.2
        (Or.inr ⟨' ', joinSpace (w2 :: ws2), rfl, hsp⟩)]
      rw [splitRuns_sep p ' ' _ hsp]
      rw [ih (fun x hx => h x (by simp [hx]))]

/-- Congruence of runs under a pointwise-equal predicate. -/
theorem splitRunsGo_congr (p q : Char → Bool) :
    ∀ (s acc : List Char), (∀ c ∈ s, p c = q c) →
      splitRunsGo p s acc = splitRunsGo q s acc := by
  intro s
  induction s with
  | nil => intro acc _; rfl
  | cons c cs ih =>
    intro acc h
    have hc := h c (by simp)
    have ht : ∀ d ∈ cs, p d = q d := fun d hd => h d (by simp [hd])
    by_cases hp : p c = true
    · rw [splitRunsGo_cons_pos p c cs acc hp,
        splitRunsGo_cons_pos q c cs acc (hc ▸ hp), ih _ ht]
    · have hp2 : p c = false := by simpa using hp
      rw [splitRunsGo_sep p c cs acc hp2, splitRunsGo_sep q c cs acc (hc ▸ hp2),
        ih _ ht]

theorem splitRuns_congr (p q : Char → Bool) (s : List Char)
    (h : ∀ c ∈ s, p c = q c) : splitRuns p s = splitRuns q s :=
  splitRunsGo_congr p q s [] h

/-- Runs of a mapped string, when the map fixes the kept characters and
reflects the predicate. -/
theorem splitRunsGo_map (p q : Char → Bool) (f : Char → Char) :
    ∀ (s acc : List Char), (∀ c ∈ s, p (f c) = q c ∧ (q c = true → f c = c)) →
      splitRunsGo p (s.map f) acc = splitRunsGo q s acc := by
  intro s
  induction s with
  | nil => intro acc _; rfl
  | cons c cs ih =>
    intro acc h
    have hc := h c (by simp)
    have ht : ∀ d ∈ cs, p (f d) = q d ∧ (q d = true → f d = d) :=
      fun d hd => h d (by simp [hd])
    rw [List.map_cons]
    by_cases hq : q c = true
    · rw [splitRunsGo_cons_pos p (f c) _ acc (hc.1 ▸ hq),
        splitRunsGo_cons_pos q c cs acc hq, hc.2 hq, ih _ ht]
    · have hq2 : q c = false := by simpa using hq
      rw [splitRunsGo_sep p (f c) _ acc (hc.1 ▸ hq2),
        splitRunsGo_sep q c cs acc hq2, ih _ ht]

theorem splitRuns_map (p q : Char → Bool) (f : Char → Char) (s : List Char)
    (h : ∀ c ∈ s, p (f c) = q c ∧ (q c = true → f c = c)) :
    splitRuns p (s.map f) = splitRuns q s :=
  splitRunsGo_map p q f s [] h

/-- Characters of a join. -/
theorem joinSpace_chars :
    ∀ (l : List (List Char)) (c : Char), c ∈ joinSpace l →
      c = ' ' ∨ ∃ w ∈ l, c ∈ w := by
  intro l
  induction l with
  | nil => intro c hc; simp [joinSpace] at hc
  | cons w ws ih =>
    intro c hc
    match ws with
    | [] => exact Or.inr ⟨w, by simp, by simpa [joinSpace_one] using hc⟩
    | w2 :: ws2 =>
      rw [joinSpace_cons2] at hc
      rcases List.mem_append.mp hc with hc | hc
      · exact Or.inr ⟨w, by simp, hc⟩
      · rcases List.mem_cons.mp hc with rfl | hc
        · exact Or.inl rfl
        · rcases ih c hc with h | ⟨x, hx, hcx⟩
          · exact Or.inl h
          · exact Or.inr ⟨x, by simp [hx], hcx⟩

theorem joinSpace_ne_nil (l : List (List Char)) (hl : l ≠ [])
    (h : ∀ w ∈ l, w ≠ []) : joinSpace l ≠ [] := by
  match l with
  | [] => exact absurd rfl hl
  | [w] => simpa [joinSpace_one] using h w (by simp)
  | w :: w2 :: ws =>
    rw [joinSpace_cons2]
    have := h w (by simp)
    intro hc
    rcases List.append_eq_nil.mp hc with ⟨h1, _⟩
    exact this h1

/-! ## Edge and character lemmas -/

theorem char_le_iff (a b : Char) : (a ≤ b) ↔ a.toNat ≤ b.toNat := by
  rw [Char.le_def, UInt32.le_def]
  rfl

theorem char_toNat_ofNat (n : Nat) (h : n < 55296) : (Char.ofNat n).toNat = n := by
  have hv : n.isValidChar := Or.inl h
  rw [Char.ofNat, dif_pos hv]
  rcases hv with h1 | h2 <;>
    simp [Char.ofNatAux, Char.toNat, UInt32.toNat, BitVec.toNat_ofNatLt]

theorem isUpperC_iff (c : Char) : isUpperC c = true ↔ 65 ≤ c.toNat ∧ c.toNat ≤ 90 := by
  rw [isUpperC, Bool.and_eq_true, decide_eq_true_iff, decide_eq_true_iff,
    char_le_iff, char_le_iff]
  exact Iff.rfl

theorem isLowerC_iff (c : Char) : isLowerC c = true ↔ 97 ≤ c.toNat ∧ c.toNat ≤ 122 := by
  rw [isLowerC, Bool.and_eq_true, decide_eq_true_iff, decide_eq_true_iff,
    char_le_iff, char_le_iff]
  exact Iff.rfl

theorem isDigitC_iff (c : Char) : isDigitC c = true ↔ 48 ≤ c.toNat ∧ c.toNat ≤ 57 := by
  rw [isDigitC, Bool.and_eq_true, decide_eq_true_iff, decide_eq_true_iff,
    char_le_iff, char_le_iff]
  exact Iff.rfl

theorem pyLower_not_upper (c : Char) : isUpperC (pyLower c) = false := by
  rw [pyLower]
  by_cases h : isUpperC c = true
  · rw [if_pos h]
    rcases (isUpperC_iff c).mp h with ⟨h1, h2⟩
    have ht : (Char.ofNat (c.toNat + 32)).toNat = c.toNat + 32 :=
      char_toNat_ofNat _ (by omega)
    by_contra hu
    rcases (isUpperC_iff _).mp (by simpa using hu) with ⟨_, h4⟩
    omega
  · rw [if_neg h]
    simpa using h

theorem pyLower_fix (c : Char) (h : isUpperC c = false) : pyLower c = c := by
  rw [pyLower, if_neg]
  simp [h]

theorem az09_not_upper (c : Char) (h : isAz09 c = true) : isUpperC c = false := by
  have h0 : isLowerC c = true ∨ isDigitC c = true := by simpa [isAz09] using h
  rcases h0 with h1 | h1
  · rcases (isLowerC_iff c).mp h1 with ⟨h2, _⟩
    by_contra hu
    rcases (isUpperC_iff c).mp (by simpa using hu) with ⟨_, h4⟩
    omega
  · rcases (isDigitC_iff c).mp h1 with ⟨_, h2⟩
    by_contra hu
    rcases (isUpperC_iff c).mp (by simpa using hu) with ⟨h3, _⟩
    omega

theorem az09_word (c : Char) (h : isAz09 c = true) : isWordC c = true := by
  have h0 : isLowerC c = true ∨ isDigitC c = true := by simpa [isAz09] using h
  rcases h0 with h1 | h1 <;>
    simp [isWordC, isAlphaC, h1]

theorem ws_toNat_le (c : Char) (h : isWsC c = true) : c.toNat ≤ 32 := by
  rw [isWsC] at h
  simp only [Bool.or_eq_true, decide_eq_true_iff] at h
  rcases h with ((((rfl | rfl) | rfl) | rfl) | rfl) | rfl <;> decide

theorem az09_not_ws (c : Char) (h : isAz09 c = true) : isWsC c = false := by
  have h0 : isLowerC c = true ∨ isDigitC c = true := by simpa [isAz09] using h
  by_contra hws
  have hle := ws_toNat_le c (by simpa using hws)
  rcases h0 with h1 | h1
  · rcases (isLowerC_iff c).mp h1 with ⟨h2, _⟩
    omega
  · rcases (isDigitC_iff c).mp h1 with ⟨h2, _⟩
    omega

theorem az09_space_not_upper (c : Char) (h : isAz09 c = true ∨ c = ' ') :
    isUpperC c = false := by
  rcases h with h | rfl
  · exact az09_not_upper c h
  · decide

theorem az09_lt_128 (c : Char) (h : isAz09 c = true ∨ c = ' ') : c.toNat < 128 := by
  rcases h with h | rfl
  · have h0 : isLowerC c = true ∨ isDigitC c = true := by simpa [isAz09] using h
    rcases h0 with h1 | h1
    · rcases (isLowerC_iff c).mp h1 with ⟨_, h2⟩
      omega
    · rcases (isDigitC_iff c).mp h1 with ⟨_, h2⟩
      omega
  · decide

/-- On characters that are `[a-z0-9]` or space, `\w` and "not whitespace"
agree. -/
theorem az09_word_eq_not_ws (c : Char) (h : isAz09 c = true ∨ c = ' ') :
    isWordC c = !isWsC c := by
  rcases h with h | rfl
  · rw [az09_word c h, az09_not_ws c h]; rfl
  · decide

/-- A `\w` character with no uppercase and no underscore is `[a-z0-9]`. -/
theorem word_eq_az09 (c : Char) (hu : isUpperC c = false) (hund : c ≠ '_') :
    isWordC c = isAz09 c := by
  rw [isWordC, isAlphaC, isAz09, hu]
  simp [hund]

theorem dropWhile_eq_self_of_head (pb : Char → Bool) (l : List Char)
    (h : ∀ c, l.head? = some c → pb c = false) : l.dropWhile pb = l := by
  match l with
  | [] => rfl
  | c :: cs =>
    rw [List.dropWhile_cons, if_neg]
    simp [h c rfl]

theorem joinSpace_head_nonWs (l : List (List Char))
    (h : ∀ w ∈ l, w ≠ [] ∧ ∀ c ∈ w, isWsC c = false) :
    ∀ c, (joinSpace l).head? = some c → isWsC c = false := by
  match l with
  | [] => intro c hc; simp [joinSpace] at hc
  | w :: ws =>
    have hw := h w (by simp)
    rcases List.exists_cons_of_ne_nil hw.1 with ⟨d, w2, rfl⟩
    match ws with
    | [] =>
      intro c hc
      rw [joinSpace_one] at hc
      simp at hc
      subst hc
      exact hw.2 d (by simp)
    | x :: xs =>
      intro c hc
      rw [joinSpace_cons2] at hc
      simp at hc
      subst hc
      exact hw.2 d (by simp)

theorem joinSpace_getLast_mem (l : List (List Char)) (hl : l ≠ [])
    (h : ∀ w ∈ l, w ≠ []) :
    ∃ c w, (joinSpace l).getLast? = some c ∧ w ∈ l ∧ c ∈ w := by
  induction l with
  | nil => exact absurd rfl hl
  | cons w ws ih =>
    match ws with
    | [] =>
      have hw := h w (by simp)
      refine ⟨w.getLast hw, w, ?_, by simp, List.getLast_mem hw⟩
      rw [joinSpace_one, List.getLast?_eq_getLast w hw]
    | x :: xs =>
      rcases ih (by simp) (fun v hv => h v (by simp [hv])) with ⟨c, v, h1, h2, h3⟩
      refine ⟨c, v, ?_, by simp [h2], h3⟩
      rw [joinSpace_cons2]
      have hne : joinSpace (x :: xs) ≠ [] :=
        joinSpace_ne_nil _ (by simp) (fun v hv => h v (by simp [hv]))
      rcases List.exists_cons_of_ne_nil hne with ⟨d, t, hdt⟩
      rw [hdt]
      have hne2 : (' ' :: d :: t : List Char) ≠ [] := by simp
      rw [List.getLast?_append_of_ne_nil w hne2]
      have hne3 : (d :: t : List Char) ≠ [] := by simp
      rw [List.getLast?_cons_cons, ← hdt]
      exact h1

theorem stripWs_joinSpace (l : List (List Char))
    (h : ∀ w ∈ l, w ≠ [] ∧ ∀ c ∈ w, isWsC c = false) :
    stripWs (joinSpace l) = joinSpace l := by
  rw [stripWs]
  rw [dropWhile_eq_self_of_head isWsC _ (joinSpace_head_nonWs l h)]
  match l with
  | [] => rfl
  | w :: ws =>
    rcases joinSpace_getLast_mem (w :: ws) (by simp) (fun v hv => (h v hv).1)
      with ⟨c, v, h1, h2, h3⟩
    rw [dropWhile_eq_self_of_head isWsC _ ?_, List.reverse_reverse]
    intro d hd
    rw [List.head?_reverse, h1] at hd
    have hdc : c = d := by simpa using hd
    rw [← hdc]
    exact (h v h2).2 c h3

/-! ## replaceAll: identity and character tracking -/

theorem replaceAllF_succ (pat repl : List Char) (c : Char) (cs : List Char)
    (fuel : Nat) :
    replaceAllF pat repl (fuel+1) (c :: cs) =
      if !pat.isEmpty && pat.isPrefixOf (c :: cs) then
        repl ++ replaceAllF pat repl fuel ((c :: cs).drop pat.length)
      else c :: replaceAllF pat repl fuel cs := rfl

theorem replaceAllF_zero (pat repl : List Char) (s : List Char) :
    replaceAllF pat repl 0 s = s := by
  cases s <;> rfl

theorem replaceAllF_id_of_no_occ (pat repl : List Char) :
    ∀ (fuel : Nat) (s : List Char), ¬ (pat <:+: s) →
      replaceAllF pat repl fuel s = s := by
  intro fuel
  induction fuel with
  | zero => intro s _; exact replaceAllF_zero pat repl s
  | succ fuel ih =>
    intro s hs
    match s with
    | [] => rfl
    | c :: cs =>
      rw [replaceAllF_succ, if_neg, ih cs]
      · intro hinf
        rcases hinf with ⟨u, v, huv⟩
        exact hs ⟨c :: u, v, by rw [← huv]; rfl⟩
      · intro hcond
        simp only [Bool.and_eq_true] at hcond
        exact hs (List.isPrefixOf_iff_prefix.mp hcond.2).isInfix

theorem replaceAll_id_of_no_occ (pat repl s : List Char) (hs : ¬ (pat <:+: s)) :
    replaceAll pat repl s = s :=
  replaceAllF_id_of_no_occ pat repl s.length s hs

theorem replaceAll_id_of_head_not_mem (p0 : Char) (pr repl s : List Char)
    (h : p0 ∉ s) : replaceAll (p0 :: pr) repl s = s := by
  refine replaceAll_id_of_no_occ _ repl s (fun hinf => h ?_)
  exact hinf.subset (by simp)

theorem replaceAllF_chars (pat repl : List Char) :
    ∀ (fuel : Nat) (s : List Char) (c : Char),
      c ∈ replaceAllF pat repl fuel s → c ∈ s ∨ c ∈ repl := by
  intro fuel
  induction fuel with
  | zero =>
    intro s c hc
    rw [replaceAllF_zero] at hc
    exact Or.inl hc
  | succ fuel ih =>
    intro s c hc
    match s with
    | [] => simp [replaceAllF] at hc
    | d :: ds =>
      rw [replaceAllF_succ] at hc
      by_cases hcond : (!pat.isEmpty && pat.isPrefixOf (d :: ds)) = true
      · rw [if_pos hcond] at hc
        rcases List.mem_append.mp hc with hc | hc
        · exact Or.inr hc
        · rcases ih _ c hc with hc | hc
          · exact Or.inl (List.mem_of_mem_drop hc)
          · exact Or.inr hc
      · rw [if_neg hcond] at hc
        rcases List.mem_cons.mp hc with rfl | hc
        · exact Or.inl (by simp)
        · rcases ih ds c hc with hc | hc
          · exact Or.inl (by simp [hc])
          · exact Or.inr hc

theorem replaceAll_chars (pat repl s : List Char) (c : Char)
    (hc : c ∈ replaceAll pat repl s) : c ∈ s ∨ c ∈ repl :=
  replaceAllF_chars pat repl s.length s c hc

/-- Replacing a single character eliminates it (when it is not put back
by the replacement). -/
theorem replaceAllF_elim (x : Char) (repl : List Char) (hx : x ∉ repl) :
    ∀ (fuel : Nat) (s : List Char), s.length ≤ fuel →
      x ∉ replaceAllF [x] repl fuel s := by
  intro fuel
  induction fuel with
  | zero =>
    intro s hs
    have : s = [] := List.eq_nil_of_length_eq_zero (Nat.le_zero.mp hs)
    subst this
    simp [replaceAllF_zero]
  | succ fuel ih =>
    intro s hs
    match s with
    | [] => simp [replaceAllF]
    | d :: ds =>
      rw [replaceAllF_succ]
      by_cases hd : d = x
      · subst hd
        have hcond : (!([d] : List Char).isEmpty && ([d] : List Char).isPrefixOf (d :: ds)) = true := by
          simp [List.isPrefixOf_iff_prefix, List.cons_prefix_cons]
        rw [if_pos hcond]
        intro hmem
        rcases List.mem_append.mp hmem with h | h
        · exact hx h
        · exact ih _ (by simpa using hs) h
      · have hpre : ([x] : List Char).isPrefixOf (d :: ds) = false := by
          rw [Bool.eq_false_iff]
          intro hp
          rcases (List.cons_prefix_cons).mp (List.isPrefixOf_iff_prefix.mp hp)
            with ⟨he, _⟩
          exact hd he.symm
        rw [if_neg (by simp [hpre])]
        intro hmem
        rcases List.mem_cons.mp hmem with h | h
        · exact hd h.symm
        · exact ih ds (by simpa using Nat.le_of_succ_le_succ hs) h

theorem replaceAll_elim (x : Char) (repl s : List Char) (hx : x ∉ repl) :
    x ∉ replaceAll [x] repl s :=
  replaceAllF_elim x repl hx s.length s le_rfl

/-! ## wordReplace: character tracking -/

theorem wordReplaceF_zero (pat repl : List Char) (b : Bool) (s : List Char) :
    wordReplaceF pat repl 0 b s = s := by
  cases s <;> rfl

theorem wordReplaceF_succ (pat repl : List Char) (fuel : Nat) (b : Bool)
    (c : Char) (cs : List Char) :
    wordReplaceF pat repl (fuel+1) b (c :: cs) =
      if !pat.isEmpty && pat.isPrefixOf (c :: cs) && !b
          && wordBoundAfter pat (c :: cs) then
        repl ++ wordReplaceF pat repl fuel
          (match pat.getLast? with | some d => isWordC d | none => b)
          ((c :: cs).drop pat.length)
      else c :: wordReplaceF pat repl fuel (isWordC c) cs := rfl

theorem wordReplaceF_chars (pat repl : List Char) :
    ∀ (fuel : Nat) (b : Bool) (s : List Char) (c : Char),
      c ∈ wordReplaceF pat repl fuel b s → c ∈ s ∨ c ∈ repl := by
  intro fuel
  induction fuel with
  | zero =>
    intro b s c hc
    rw [wordReplaceF_zero] at hc
    exact Or.inl hc
  | succ fuel ih =>
    intro b s c hc
    match s with
    | [] => simp [wordReplaceF] at hc
    | d :: ds =>
      rw [wordReplaceF_succ] at hc
      by_cases hcond : (!pat.isEmpty && pat.isPrefixOf (d :: ds) && !b
          && wordBoundAfter pat (d :: ds)) = true
      · rw [if_pos hcond] at hc
        rcases List.mem_append.mp hc with hc | hc
        · exact Or.inr hc
        · rcases ih _ _ c hc with hc | hc
          · exact Or.inl (List.mem_of_mem_drop hc)
          · exact Or.inr hc
      · rw [if_neg hcond] at hc
        rcases List.mem_cons.mp hc with rfl | hc
        · exact Or.inl (by simp)
        · rcases ih _ ds c hc with hc | hc
          · exact Or.inl (by simp [hc])
          · exact Or.inr hc

theorem wordReplace_chars (pat repl s : List Char) (c : Char)
    (hc : c ∈ wordReplace pat repl s) : c ∈ s ∨ c ∈ repl :=
  wordReplaceF_chars pat repl s.length false s c hc

/-! ## No double space in a joined word list -/

theorem joinSpace_chain (l : List (List Char))
    (h : ∀ w ∈ l, w ≠ [] ∧ ∀ c ∈ w, isWsC c = false) :
    List.Chain' (fun a b => isWsC a = false ∨ isWsC b = false) (joinSpace l) := by
  induction l with
  | nil => exact List.chain'_nil
  | cons w ws ih =>
    have hw := h w (by simp)
    have hcw : List.Chain' (fun a b => isWsC a = false ∨ isWsC b = false) w :=
      (List.pairwise_of_forall_mem_list
        (fun a ha _ _ => Or.inl (hw.2 a ha))).chain'
    match ws with
    | [] => rw [joinSpace_one]; exact hcw
    | x :: xs =>
      rw [joinSpace_cons2]
      refine hcw.append ?_ ?_
      · rw [List.chain'_cons']
        refine ⟨?_, ih (fun v hv => h v (by simp [hv]))⟩
        intro y hy
        exact Or.inr (joinSpace_head_nonWs (x :: xs)
          (fun v hv => h v (by simp [hv])) y hy)
      · intro a ha y hy
        exact Or.inl (hw.2 a (List.mem_of_mem_getLast? ha))

theorem no_double_space (l : List (List Char))
    (h : ∀ w ∈ l, w ≠ [] ∧ ∀ c ∈ w, isWsC c = false) :
    ¬ (([' ', ' '] : List Char) <:+: joinSpace l) := by
  intro hinf
  rcases hinf with ⟨u, v, huv⟩
  have hch := joinSpace_chain l h
  rw [← huv, List.append_assoc] at hch
  have h2 := (List.chain'_append.mp hch).2.1
  have h3 := (List.chain'_append.mp h2).1
  rcases (List.chain'_cons.mp h3).1 with hc | hc <;> simp [isWsC] at hc

/-! ## Words of a collapse; collapse is a projection -/

theorem pyWords_good (s : List Char) :
    ∀ w ∈ pyWords s, w ≠ [] ∧ ∀ c ∈ w, isWsC c = false := by
  intro w hw
  have h := splitRuns_sound _ s w hw
  exact ⟨h.1, fun c hc => by simpa using (h.2 c hc).1⟩

theorem pyWords_joinSpace (l : List (List Char))
    (h : ∀ w ∈ l, w ≠ [] ∧ ∀ c ∈ w, isWsC c = false) :
    pyWords (joinSpace l) = l := by
  refine splitRuns_joinSpace _ (by decide) l ?_
  intro w hw
  exact ⟨(h w hw).1, fun c hc => by simp [(h w hw).2 c hc]⟩

theorem collapseWs_of_good (l : List (List Char))
    (h : ∀ w ∈ l, w ≠ [] ∧ ∀ c ∈ w, isWsC c = false) :
    collapseWs (joinSpace l) = joinSpace l := by
  rw [collapseWs, pyWords_joinSpace l h]

theorem map_id_of_fix (f : Char → Char) :
    ∀ (l : List Char), (∀ c ∈ l, f c = c) → l.map f = l := by
  intro l h
  induction l with
  | nil => rfl
  | cons c cs ih =>
    rw [List.map_cons, h c (by simp), ih (fun d hd => h d (by simp [hd]))]

/-! ## category_mapper.py: normalize_text is idempotent -/

namespace CategoryMapper

theorem t2_unfold (t1 : List Char) :
    replacements.foldl (fun t pr => replaceAll pr.1 pr.2 t) t1 =
      replaceAll "  ".data " ".data (replaceAll "_".data " ".data
        (replaceAll "-".data " ".data (replaceAll "/".data " ".data
          (replaceAll "+".data "and".data
            (replaceAll "&".data "and".data t1))))) := rfl

/-- After the replacement chain on a lowercased string there is no
uppercase letter and no underscore. -/
theorem t2_chars (text : List Char) :
    ∀ c ∈ replacements.foldl (fun t pr => replaceAll pr.1 pr.2 t)
        (text.map pyLower), isUpperC c = false ∧ c ≠ '_' := by
  intro c hc
  rw [t2_unfold] at hc
  constructor
  · rcases replaceAll_chars _ _ _ c hc with h | h
    rotate_left
    · have : c = ' ' := by simpa using h
      subst this; decide
    rcases replaceAll_chars _ _ _ c h with h | h
    rotate_left
    · have : c = ' ' := by simpa using h
      subst this; decide
    rcases replaceAll_chars _ _ _ c h with h | h
    rotate_left
    · have : c = ' ' := by simpa using h
      subst this; decide
    rcases replaceAll_chars _ _ _ c h with h | h
    rotate_left
    · have : c = ' ' := by simpa using h
      subst this; decide
    rcases replaceAll_chars _ _ _ c h with h | h
    rotate_left
    · have hm : c = 'a' ∨ c = 'n' ∨ c = 'd' := by simpa using h
      rcases hm with rfl | rfl | rfl <;> decide
    rcases replaceAll_chars _ _ _ c h with h | h
    rotate_left
    · have hm : c = 'a' ∨ c = 'n' ∨ c = 'd' := by simpa using h
      rcases hm with rfl | rfl | rfl <;> decide
    rcases List.mem_map.mp h with ⟨d, _, rfl⟩
    exact pyLower_not_upper d
  · intro hund
    subst hund
    rcases replaceAll_chars _ _ _ _ hc with h | h
    rotate_left
    · simp at h
    exact replaceAll_elim '_' " ".data _ (by decide) h

/-- Characters of the normalised form: word characters (never uppercase,
never underscore) and single spaces. -/
theorem norm_core_chars (t : List Char) :
    ∀ c ∈ normalize_core t,
      (isWordC c = true ∧ isUpperC c = false ∧ c ≠ '_') ∨ c = ' ' := by
  intro c hc
  rw [normalize_core] at hc
  rcases joinSpace_chars _ c hc with h | ⟨w, hw, hcw⟩
  · exact Or.inr h
  have hs := splitRuns_sound _ _ w hw
  have hnw : isWsC c = false := by simpa using (hs.2 c hcw).1
  have hmem := (hs.2 c hcw).2
  rcases List.mem_filter.mp hmem with ⟨hm2, hcls⟩
  have hword : isWordC c = true := by
    rcases Bool.or_eq_true_iff.mp hcls with h | h
    · exact h
    · rw [h] at hnw; cases hnw
  exact Or.inl ⟨hword, (t2_chars t c hm2).1, (t2_chars t c hm2).2⟩

theorem norm_core_eq (x : List Char) :
    normalize_core x = collapseWs ((replacements.foldl
      (fun a pr => replaceAll pr.1 pr.2 a) (x.map pyLower)).filter
        (fun c => isWordC c || isWsC c)) := rfl

theorem norm_core_idem (t : List Char) :
    normalize_core (normalize_core t) = normalize_core t := by
  have hchars := norm_core_chars t
  have hgood : ∀ w ∈ pyWords ((replacements.foldl
      (fun x pr => replaceAll pr.1 pr.2 x) (t.map pyLower)).filter
        (fun c => isWordC c || isWsC c)),
      w ≠ [] ∧ ∀ c ∈ w, isWsC c = false := pyWords_good _
  have hr : normalize_core t = joinSpace (pyWords ((replacements.foldl
      (fun x pr => replaceAll pr.1 pr.2 x) (t.map pyLower)).filter
        (fun c => isWordC c || isWsC c))) := rfl
  have h1 : (normalize_core t).map pyLower = normalize_core t := by
    refine map_id_of_fix pyLower _ ?_
    intro c hc
    rcases hchars c hc with ⟨_, hu, _⟩ | rfl
    · exact pyLower_fix c hu
    · decide
  have hnotmem : ∀ x : Char, isWordC x = false → x ≠ ' ' →
      x ∉ normalize_core t := by
    intro x hx hxs hmem
    rcases hchars x hmem with ⟨hw, _, _⟩ | h
    · rw [hw] at hx; cases hx
    · exact hxs h
  have h2 : replacements.foldl (fun x pr => replaceAll pr.1 pr.2 x)
      (normalize_core t) = normalize_core t := by
    rw [t2_unfold]
    rw [replaceAll_id_of_head_not_mem '&' [] _ _
      (hnotmem '&' (by decide) (by decide))]
    rw [replaceAll_id_of_head_not_mem '+' [] _ _
      (hnotmem '+' (by decide) (by decide))]
    rw [replaceAll_id_of_head_not_mem '/' [] _ _
      (hnotmem '/' (by decide) (by decide))]
    rw [replaceAll_id_of_head_not_mem '-' [] _ _
      (hnotmem '-' (by decide) (by decide))]
    rw [replaceAll_id_of_head_not_mem '_' [] _ _ (fun hmem => by
      rcases hchars '_' hmem with ⟨_, _, hu⟩ | h
      · exact hu rfl
      · cases h)]
    have hds : ¬ (("  ".data : List Char) <:+: normalize_core t) := by
      rw [hr]
      exact no_double_space _ hgood
    exact replaceAll_id_of_no_occ _ _ _ hds
  have h3 : (normalize_core t).filter (fun c => isWordC c || isWsC c) =
      normalize_core t := by
    refine List.filter_eq_self.mpr ?_
    intro c hc
    rcases hchars c hc with ⟨hw, _, _⟩ | rfl
    · simp [hw]
    · decide
  have h4 : collapseWs (normalize_core t) = normalize_core t := by
    rw [hr, collapseWs_of_good _ hgood]
  rw [norm_core_eq (normalize_core t), h1, h2, h3, h4]

end CategoryMapper

/-! ## A fuel-free twin of wordReplaceF for reasoning -/

def wordReplaceW (pat repl : List Char) : Bool → List Char → List Char
  | _, [] => []
  | b, c :: cs =>
    if h : (!pat.isEmpty && pat.isPrefixOf (c :: cs) && !b
        && wordBoundAfter pat (c :: cs)) = true then
      repl ++ wordReplaceW pat repl
        (match pat.getLast? with | some d => isWordC d | none => b)
        ((c :: cs).drop pat.length)
    else
      c :: wordReplaceW pat repl (isWordC c) cs
termination_by b s => s.length
decreasing_by
  · simp only [Bool.and_eq_true] at h
    have hne : pat ≠ [] := by
      intro he
      rw [he] at h
      simp at h
    have : 0 < pat.length := List.length_pos.mpr hne
    simp [List.length_drop]
    omega
  · simp

theorem wordReplaceW_nil (pat repl : List Char) (b : Bool) :
    wordReplaceW pat repl b [] = [] := by
  rw [wordReplaceW]

theorem wordReplaceW_cons_pos (pat repl : List Char) (b : Bool) (c : Char)
    (cs : List Char)
    (h : (!pat.isEmpty && pat.isPrefixOf (c :: cs) && !b
        && wordBoundAfter pat (c :: cs)) = true) :
    wordReplaceW pat repl b (c :: cs) =
      repl ++ wordReplaceW pat repl
        (match pat.getLast? with | some d => isWordC d | none => b)
        ((c :: cs).drop pat.length) := by
  rw [wordReplaceW, dif_pos h]

theorem wordReplaceW_cons_neg (pat repl : List Char) (b : Bool) (c : Char)
    (cs : List Char)
    (h : ¬ ((!pat.isEmpty && pat.isPrefixOf (c :: cs) && !b
        && wordBoundAfter pat (c :: cs)) = true)) :
    wordReplaceW pat repl b (c :: cs) =
      c :: wordReplaceW pat repl (isWordC c) cs := by
  rw [wordReplaceW, dif_neg h]

/-- With enough fuel, the fuelled worker agrees with the twin. -/
theorem wordReplaceF_eq_W (pat repl : List Char) :
    ∀ (fuel : Nat) (b : Bool) (s : List Char), s.length ≤ fuel →
      wordReplaceF pat repl fuel b s = wordReplaceW pat repl b s := by
  intro fuel
  induction fuel with
  | zero =>
    intro b s hs
    have : s = [] := List.eq_nil_of_length_eq_zero (Nat.le_zero.mp hs)
    subst this
    rw [wordReplaceF_zero, wordReplaceW_nil]
  | succ fuel ih =>
    intro b s hs
    match s with
    | [] => rw [show wordReplaceF pat repl (fuel+1) b [] = [] from rfl, wordReplaceW_nil]
    | c :: cs =>
      rw [wordReplaceF_succ]
      by_cases h : (!pat.isEmpty && pat.isPrefixOf (c :: cs) && !b
          && wordBoundAfter pat (c :: cs)) = true
      · rw [if_pos h, wordReplaceW_cons_pos pat repl b c cs h]
        congr 1
        refine ih _ _ ?_
        have hne : pat ≠ [] := by
          simp only [Bool.and_eq_true] at h
          intro he
          rw [he] at h
          simp at h
        have : 0 < pat.length := List.length_pos.mpr hne
        simp only [List.length_drop, List.length_cons]
        simp only [List.length_cons] at hs
        omega
      · rw [if_neg h, wordReplaceW_cons_neg pat repl b c cs h]
        congr 1
        refine ih _ cs ?_
        simp only [List.length_cons] at hs
        omega

theorem wordReplace_eq_W (pat repl s : List Char) :
    wordReplace pat repl s = wordReplaceW pat repl false s :=
  wordReplaceF_eq_W pat repl s.length false s le_rfl

/-! ## Step lemmas for the twin -/

/-- Scanning past a non-word character. -/
theorem wordReplaceW_sep (pat repl : List Char) (hp : pat ≠ [])
    (hpw : ∀ c ∈ pat, isWordC c = true) (b : Bool) (d : Char) (s : List Char)
    (hd : isWordC d = false) :
    wordReplaceW pat repl b (d :: s) = d :: wordReplaceW pat repl false s := by
  rw [wordReplaceW_cons_neg, hd]
  intro h
  simp only [Bool.and_eq_true] at h
  rcases List.exists_cons_of_ne_nil hp with ⟨p0, pr, rfl⟩
  rcases (List.cons_prefix_cons).mp (List.isPrefixOf_iff_prefix.mp h.1.1.2)
    with ⟨he, _⟩
  rw [← he] at hd
  rw [hpw p0 (by simp)] at hd
  cases hd

/-- Scanning through word characters with the previous-character flag
set: nothing can match. -/
theorem wordReplaceW_run (pat repl : List Char) :
    ∀ (w s : List Char), (∀ c ∈ w, isWordC c = true) →
      wordReplaceW pat repl true (w ++ s) = w ++ wordReplaceW pat repl true s := by
  intro w
  induction w with
  | nil => intro s _; rfl
  | cons d w2 ih =>
    intro s h
    rw [List.cons_append, wordReplaceW_cons_neg, h d (by simp),
      ih s (fun c hc => h c (by simp [hc]))]
    · rfl
    · intro hcond
      simp only [Bool.and_eq_true] at hcond
      rcases hcond with ⟨⟨_, hb⟩, _⟩
      simp at hb

/-! ## Runs characterisation of whole-word replacement -/

theorem dropWhile_head_false (p : Char → Bool) :
    ∀ (l : List Char) (d : Char) (t : List Char),
      l.dropWhile p = d :: t → p d = false := by
  intro l
  induction l with
  | nil => intro d t h; simp at h
  | cons c cs ih =>
    intro d t h
    rw [List.dropWhile_cons] at h
    by_cases hc : p c = true
    · rw [if_pos hc] at h
      exact ih d t h
    · rw [if_neg hc] at h
      injection h with h1 _
      rw [← h1]
      simpa using hc

theorem wordReplaceW_runs_aux (pat repl : List Char) (hp : pat ≠ [])
    (hpw : ∀ c ∈ pat, isWordC c = true) (hq : repl ≠ [])
    (hqw : ∀ c ∈ repl, isWordC c = true) :
    ∀ (n : Nat) (s : List Char), s.length ≤ n →
      splitRuns isWordC (wordReplaceW pat repl false s)
        = (splitRuns isWordC s).map (fun w => if w = pat then repl else w) := by
  intro n
  induction n with
  | zero =>
    intro s hs
    have hnil : s = [] := List.eq_nil_of_length_eq_zero (Nat.le_zero.mp hs)
    subst hnil
    rw [wordReplaceW_nil]
    rfl
  | succ n ih =>
    intro s hs
    match s with
    | [] =>
      rw [wordReplaceW_nil]
      rfl
    | c :: cs =>
      have hcs : cs.length ≤ n := by
        simp only [List.length_cons] at hs
        omega
      by_cases hc : isWordC c = true
      rotate_left
      · have hc2 : isWordC c = false := by simpa using hc
        rw [wordReplaceW_sep pat repl hp hpw false c cs hc2,
          splitRuns_sep _ c _ hc2, splitRuns_sep _ c cs hc2]
        exact ih cs hcs
      · have hsplit : c :: cs =
            (c :: cs.takeWhile isWordC) ++ cs.dropWhile isWordC := by
          rw [List.cons_append, List.takeWhile_append_dropWhile]
        have hwne : (c :: cs.takeWhile isWordC) ≠ [] := by simp
        have hwall : ∀ x ∈ c :: cs.takeWhile isWordC, isWordC x = true := by
          intro x hx
          rcases List.mem_cons.mp hx with rfl | hx
          · exact hc
          · exact List.mem_takeWhile_imp hx
        have husep : cs.dropWhile isWordC = [] ∨
            ∃ d t, cs.dropWhile isWordC = d :: t ∧ isWordC d = false := by
          rcases he : cs.dropWhile isWordC with _ | ⟨d, t⟩
          · exact Or.inl rfl
          · exact Or.inr ⟨d, t, rfl, dropWhile_head_false _ cs d t he⟩
        have hruns : splitRuns isWordC (c :: cs) =
            (c :: cs.takeWhile isWordC) :: splitRuns isWordC (cs.dropWhile isWordC) := by
          rw [show splitRuns isWordC (c :: cs)
              = splitRuns isWordC ((c :: cs.takeWhile isWordC) ++ cs.dropWhile isWordC)
            from by rw [← hsplit]]
          exact splitRuns_run _ _ _ hwne hwall husep
        by_cases hwp : (c :: cs.takeWhile isWordC) = pat
        · -- the first run is exactly the pattern: it is replaced
          have hlast : ∃ lst, pat.getLast? = some lst ∧ isWordC lst = true := by
            refine ⟨pat.getLast hp, List.getLast?_eq_getLast pat hp, ?_⟩
            exact hpw _ (List.getLast_mem hp)
          rcases hlast with ⟨lst, hlast, hlw⟩
          have hM : (!pat.isEmpty && pat.isPrefixOf (c :: cs) && !false
              && wordBoundAfter pat (c :: cs)) = true := by
            have h1 : (!pat.isEmpty) = true := by simp [hp]
            have h2 : pat.isPrefixOf (c :: cs) = true := by
              rw [List.isPrefixOf_iff_prefix]
              rw [hsplit, ← hwp]
              exact List.prefix_append _ _
            have h3 : wordBoundAfter pat (c :: cs) = true := by
              rw [wordBoundAfter, hsplit, ← hwp, List.drop_left]
              rcases husep with he | ⟨d, t, he, hd⟩
              · rw [he]
              · rw [he]
                show (!isWordC d) = true
                rw [hd]
                rfl
            rw [h1, h2, h3]
            rfl
          rw [wordReplaceW_cons_pos pat repl false c cs hM]
          have hnb : (match pat.getLast? with
              | some d => isWordC d | none => false) = true := by
            rw [hlast]
            show isWordC lst = true
            exact hlw
          rw [hnb]
          have hdrop : (c :: cs).drop pat.length = cs.dropWhile isWordC := by
            rw [hsplit, ← hwp, List.drop_left]
          rw [hdrop, hruns, List.map_cons, if_pos hwp]
          rcases husep with he | ⟨d, t, he, hd⟩
          · rw [he, wordReplaceW_nil, List.append_nil, splitRuns_nil,
              List.map_nil]
            rw [show splitRuns isWordC repl = splitRuns isWordC (repl ++ []) from
              by rw [List.append_nil]]
            exact splitRuns_run _ repl [] hq hqw (Or.inl rfl)
          · rw [he, wordReplaceW_sep pat repl hp hpw true d t hd]
            have htl : t.length ≤ n := by
              have h5 : (cs.dropWhile isWordC).length ≤ cs.length :=
                (List.dropWhile_sublist isWordC).length_le
              rw [he] at h5
              simp only [List.length_cons] at h5
              omega
            rw [splitRuns_run _ repl _ hq hqw
              (Or.inr ⟨d, wordReplaceW pat repl false t, rfl, hd⟩)]
            rw [splitRuns_sep _ d _ hd, splitRuns_sep _ d t hd]
            rw [ih t htl]
        · -- the first run differs from the pattern: it is kept
          have hM : ¬ ((!pat.isEmpty && pat.isPrefixOf (c :: cs) && !false
              && wordBoundAfter pat (c :: cs)) = true) := by
            intro hM
            simp only [Bool.and_eq_true] at hM
            rcases hM with ⟨⟨⟨_, hpre⟩, _⟩, hbnd⟩
            rcases List.isPrefixOf_iff_prefix.mp hpre with ⟨rest, heq⟩
            have hrsep : rest = [] ∨ ∃ d t, rest = d :: t ∧ isWordC d = false := by
              rcases hr : rest with _ | ⟨d, t⟩
              · exact Or.inl rfl
              · refine Or.inr ⟨d, t, rfl, ?_⟩
                rw [wordBoundAfter, ← heq, List.drop_left, hr] at hbnd
                simpa using hbnd
            have hruns2 : splitRuns isWordC (c :: cs) =
                pat :: splitRuns isWordC rest := by
              rw [← heq]
              exact splitRuns_run _ pat rest hp hpw hrsep
            rw [hruns] at hruns2
            injection hruns2 with h1 _
            exact hwp h1
          rw [wordReplaceW_cons_neg pat repl false c cs hM, hc]
          rw [show wordReplaceW pat repl true cs
              = cs.takeWhile isWordC ++ wordReplaceW pat repl true (cs.dropWhile isWordC) from by
            rw [show wordReplaceW pat repl true cs
                = wordReplaceW pat repl true (cs.takeWhile isWordC ++ cs.dropWhile isWordC) from by
              rw [List.takeWhile_append_dropWhile]]
            exact wordReplaceW_run pat repl _ _ (fun x hx => List.mem_takeWhile_imp hx)]
          rw [← List.cons_append, hruns]
          rcases husep with he | ⟨d, t, he, hd⟩
          · rw [he, wordReplaceW_nil, List.append_nil, splitRuns_nil,
              List.map_cons, List.map_nil, if_neg hwp]
            rw [show splitRuns isWordC (c :: cs.takeWhile isWordC)
                = splitRuns isWordC ((c :: cs.takeWhile isWordC) ++ []) from
              by rw [List.append_nil]]
            exact splitRuns_run _ _ [] hwne hwall (Or.inl rfl)
          · rw [he, wordReplaceW_sep pat repl hp hpw true d t hd]
            have htl : t.length ≤ n := by
              have h5 : (cs.dropWhile isWordC).length ≤ cs.length :=
                (List.dropWhile_sublist isWordC).length_le
              rw [he] at h5
              simp only [List.length_cons] at h5
              omega
            rw [splitRuns_run _ _ _ hwne hwall
              (Or.inr ⟨d, wordReplaceW pat repl false t, rfl, hd⟩)]
            rw [splitRuns_sep _ d _ hd, splitRuns_sep _ d t hd]
            rw [List.map_cons, if_neg hwp, ih t htl]

theorem wordReplace_runs (pat repl : List Char) (hp : pat ≠ [])
    (hpw : ∀ c ∈ pat, isWordC c = true) (hq : repl ≠ [])
    (hqw : ∀ c ∈ repl, isWordC c = true) (s : List Char) :
    splitRuns isWordC (wordReplace pat repl s)
      = (splitRuns isWordC s).map (fun w => if w = pat then repl else w) := by
  rw [wordReplace_eq_W]
  exact wordReplaceW_runs_aux pat repl hp hpw hq hqw s.length s le_rfl

/-! ## Whole-word replacement is the identity when the pattern is not a
word of the string (over `[a-z0-9 ]` strings) -/

theorem wordReplaceF_id (pat repl : List Char) (hp : pat ≠ [])
    (hpw : ∀ c ∈ pat, isWordC c = true) :
    ∀ (fuel : Nat) (b : Bool) (s : List Char),
      (∀ c ∈ s, isAz09 c = true ∨ c = ' ') →
      (b = false → pat ∉ splitRuns isWordC s) →
      (b = true → pat ∉ splitRuns isWordC (s.dropWhile isWordC)) →
      wordReplaceF pat repl fuel b s = s := by
  intro fuel
  induction fuel with
  | zero => intro b s _ _ _; exact wordReplaceF_zero pat repl b s
  | succ fuel ih =>
    intro b s hch hb0 hb1
    match s with
    | [] => rfl
    | c :: cs =>
      have hcch : isAz09 c = true ∨ c = ' ' := hch c (by simp)
      have htch : ∀ x ∈ cs, isAz09 x = true ∨ x = ' ' :=
        fun x hx => hch x (by simp [hx])
      rw [wordReplaceF_succ, if_neg ?hM]
      case hM =>
        intro hM
        simp only [Bool.and_eq_true] at hM
        rcases hM with ⟨⟨⟨_, hpre⟩, hbf⟩, hbnd⟩
        have hbF : b = false := by simpa using hbf
        rcases List.isPrefixOf_iff_prefix.mp hpre with ⟨rest, heq⟩
        have hrsep : rest = [] ∨ ∃ d t, rest = d :: t ∧ isWordC d = false := by
          rcases hr : rest with _ | ⟨d, t⟩
          · exact Or.inl rfl
          · refine Or.inr ⟨d, t, rfl, ?_⟩
            rw [wordBoundAfter, ← heq, List.drop_left, hr] at hbnd
            simpa using hbnd
        have : pat ∈ splitRuns isWordC (c :: cs) := by
          rw [← heq, splitRuns_run _ pat rest hp hpw hrsep]
          simp
        exact (hb0 hbF) this
      congr 1
      by_cases hcw : isWordC c = true
      · -- entering (or continuing) a word run
        refine ih (isWordC c) cs htch (by rw [hcw]; intro h; cases h) ?_
        intro _
        by_cases hb : b = true
        · have h2 := hb1 hb
          rw [List.dropWhile_cons, if_pos hcw] at h2
          exact h2
        · have hbF : b = false := by simpa using hb
          have h2 := hb0 hbF
          have hsplit : c :: cs =
              (c :: cs.takeWhile isWordC) ++ cs.dropWhile isWordC := by
            rw [List.cons_append, List.takeWhile_append_dropWhile]
          have hwne : (c :: cs.takeWhile isWordC) ≠ [] := by simp
          have hwall : ∀ x ∈ c :: cs.takeWhile isWordC, isWordC x = true := by
            intro x hx
            rcases List.mem_cons.mp hx with rfl | hx
            · exact hcw
            · exact List.mem_takeWhile_imp hx
          have husep : cs.dropWhile isWordC = [] ∨
              ∃ d t, cs.dropWhile isWordC = d :: t ∧ isWordC d = false := by
            rcases he : cs.dropWhile isWordC with _ | ⟨d, t⟩
            · exact Or.inl rfl
            · exact Or.inr ⟨d, t, rfl, dropWhile_head_false _ cs d t he⟩
          rw [hsplit, splitRuns_run _ _ _ hwne hwall husep] at h2
          intro hmem
          exact h2 (by simp [hmem])
      · -- a separator: c must be a space
        have hsp : c = ' ' := by
          rcases hcch with h | h
          · exact absurd (az09_word c h) hcw
          · exact h
        have hcw2 : isWordC c = false := by simpa using hcw
        refine ih (isWordC c) cs htch ?_ (by rw [hcw2]; intro h; cases h)
        intro _
        by_cases hb : b = true
        · have h2 := hb1 hb
          rw [List.dropWhile_cons, if_neg (by simp [hcw2])] at h2
          rw [splitRuns_sep _ c cs hcw2] at h2
          exact h2
        · have hbF : b = false := by simpa using hb
          have h2 := hb0 hbF
          rw [splitRuns_sep _ c cs hcw2] at h2
          exact h2

theorem wordReplace_id (pat repl s : List Char) (hp : pat ≠ [])
    (hpw : ∀ c ∈ pat, isWordC c = true)
    (hch : ∀ c ∈ s, isAz09 c = true ∨ c = ' ')
    (hnm : pat ∉ splitRuns isWordC s) :
    wordReplace pat repl s = s := by
  rw [wordReplace]
  exact wordReplaceF_id pat repl hp hpw s.length false s hch (fun _ => hnm)
    (fun h => by cases h)

/-! ## Folding whole-word substitutions over a table -/

/-- The word-level effect of one whole-word substitution. -/
def substW (pr : List Char × List Char) (w : List Char) : List Char :=
  if w = pr.1 then pr.2 else w

theorem foldWR_runs (tbl : List (List Char × List Char))
    (h : ∀ pr ∈ tbl, pr.1 ≠ [] ∧ (∀ c ∈ pr.1, isWordC c = true) ∧
      pr.2 ≠ [] ∧ (∀ c ∈ pr.2, isWordC c = true)) :
    ∀ t : List Char,
      splitRuns isWordC (tbl.foldl (fun x pr => wordReplace pr.1 pr.2 x) t)
        = (splitRuns isWordC t).map
            (fun w => tbl.foldl (fun x pr => substW pr x) w) := by
  induction tbl with
  | nil => intro t; simp
  | cons hd tl ih =>
    intro t
    rw [List.foldl_cons]
    rcases h hd (by simp) with ⟨h1, h2, h3, h4⟩
    rw [ih (fun pr hpr => h pr (by simp [hpr]))]
    rw [wordReplace_runs hd.1 hd.2 h1 h2 h3 h4 t]
    rw [List.map_map]
    refine List.map_congr_left ?_
    intro w _
    rw [Function.comp_apply, List.foldl_cons]
    rfl

theorem subst_range (tbl : List (List Char × List Char)) :
    ∀ w : List Char, tbl.foldl (fun x pr => substW pr x) w = w ∨
      ∃ pr ∈ tbl, tbl.foldl (fun x pr => substW pr x) w = pr.2 := by
  induction tbl with
  | nil => intro w; exact Or.inl rfl
  | cons hd tl ih =>
    intro w
    rw [List.foldl_cons]
    rcases ih (substW hd w) with h | ⟨pr, hpr, he⟩
    rotate_left
    · exact Or.inr ⟨pr, by simp [hpr], he⟩
    rw [h]
    rw [substW]
    by_cases hw : w = hd.1
    · rw [if_pos hw]
      exact Or.inr ⟨hd, by simp, rfl⟩
    · rw [if_neg hw]
      exact Or.inl rfl

theorem subst_avoid (tbl : List (List Char × List Char))
    (h : ∀ pr ∈ tbl, ∀ pr2 ∈ tbl, pr.2 ≠ pr2.1) :
    ∀ (w : List Char) (pr : List Char × List Char), pr ∈ tbl →
      tbl.foldl (fun x pr => substW pr x) w ≠ pr.1 := by
  induction tbl with
  | nil => intro w pr hpr; simp at hpr
  | cons hd tl ih =>
    intro w pr hpr
    rw [List.foldl_cons]
    rcases List.mem_cons.mp hpr with rfl | hpr2
    · -- target is the head pattern
      rcases subst_range tl (substW pr w) with he | ⟨pr2, hpr2, he⟩
      · rw [he, substW]
        by_cases hw : w = pr.1
        · rw [if_pos hw]
          exact h pr (by simp) pr (by simp)
        · rw [if_neg hw]
          exact hw
      · rw [he]
        exact h pr2 (by simp [hpr2]) pr (by simp)
    · exact ih (fun a ha b hb => h a (by simp [ha]) b (by simp [hb]))
        (substW hd w) pr hpr2

theorem foldWR_chars (tbl : List (List Char × List Char)) :
    ∀ (t : List Char) (c : Char),
      c ∈ tbl.foldl (fun x pr => wordReplace pr.1 pr.2 x) t →
        c ∈ t ∨ ∃ pr ∈ tbl, c ∈ pr.2 := by
  induction tbl with
  | nil => intro t c hc; exact Or.inl hc
  | cons hd tl ih =>
    intro t c hc
    rw [List.foldl_cons] at hc
    rcases ih _ c hc with h | ⟨pr, hpr, hm⟩
    rotate_left
    · exact Or.inr ⟨pr, by simp [hpr], hm⟩
    rcases wordReplace_chars hd.1 hd.2 t c h with h | h
    · exact Or.inl h
    · exact Or.inr ⟨hd, by simp, h⟩

theorem foldWR_id (tbl : List (List Char × List Char)) (t : List Char)
    (h : ∀ pr ∈ tbl, wordReplace pr.1 pr.2 t = t) :
    tbl.foldl (fun x pr => wordReplace pr.1 pr.2 x) t = t := by
  induction tbl with
  | nil => rfl
  | cons hd tl ih =>
    rw [List.foldl_cons, h hd (by simp)]
    exact ih (fun pr hpr => h pr (by simp [hpr]))

/-! ## stripAccents -/

namespace OmToFsqMap

theorem asciiFold_ascii (c : Char) (h : c.toNat < 128) : asciiFold c = [c] := by
  rw [asciiFold, if_pos h]

theorem stripAccents_ascii (s : List Char) (h : ∀ c ∈ s, c.toNat < 128) :
    stripAccents s = s := by
  rw [stripAccents]
  induction s with
  | nil => rfl
  | cons c cs ih =>
    rw [List.flatMap_cons, asciiFold_ascii c (h c (by simp)),
      ih (fun d hd => h d (by simp [hd]))]
    rfl

theorem stripAccents_chars (s : List Char) (c : Char)
    (hc : c ∈ stripAccents s) :
    c ∈ s ∨ ∃ p ∈ asciiFold.accentPairs, c = p.2 := by
  rw [stripAccents] at hc
  rcases List.mem_flatMap.mp hc with ⟨d, hd, hcd⟩
  rw [asciiFold] at hcd
  by_cases h128 : d.toNat < 128
  · rw [if_pos h128] at hcd
    have : c = d := by simpa using hcd
    subst this
    exact Or.inl hd
  · rw [if_neg h128] at hcd
    rcases hf : asciiFold.accentPairs.find? (fun p => p.1 = d) with _ | p
    · rw [hf] at hcd
      simp at hcd
    · rw [hf] at hcd
      have : c = p.2 := by simpa using hcd
      subst this
      exact Or.inr ⟨p, List.mem_of_find?_eq_some hf, rfl⟩

end OmToFsqMap

/-! ## om_to_fsq_map.py: normalize_text is idempotent -/

namespace OmToFsqMap

/-- Stage 6 of `normalize_text`: after accent stripping and separator
replacement. -/
def nt6 (v : List Char) : List Char :=
  replaceAll "-".data " ".data (replaceAll "_".data " ".data
    (replaceAll "/".data " ".data (replaceAll "&".data " and ".data
      (stripAccents ((stripWs v).map pyLower)))))

/-- Stage 7: after the whole-word spelling substitutions. -/
def nt7 (v : List Char) : List Char :=
  spellingTable.foldl (fun t pr => wordReplace pr.1 pr.2 t) (nt6 v)

/-- Stage 8: after projecting characters outside `[a-z0-9\s]` to space. -/
def nt8 (v : List Char) : List Char :=
  (nt7 v).map (fun c => if isAz09 c || isWsC c then c else ' ')

theorem norm_eq (v : List Char) :
    normalize_text (some v) = collapseWs (nt8 v) := rfl

theorem spelling_facts :
    ∀ pr ∈ spellingTable, pr.1 ≠ [] ∧ (∀ c ∈ pr.1, isWordC c = true) ∧
      pr.2 ≠ [] ∧ (∀ c ∈ pr.2, isWordC c = true) := by decide

theorem spelling_disjoint :
    ∀ pr ∈ spellingTable, ∀ pr2 ∈ spellingTable, pr.2 ≠ pr2.1 := by decide

theorem spelling_dst_chars :
    ∀ pr ∈ spellingTable, ∀ c ∈ pr.2, isUpperC c = false ∧ c ≠ '_' := by
  decide

theorem accent_chars :
    ∀ p ∈ asciiFold.accentPairs, isUpperC p.2 = false ∧ p.2 ≠ '_' := by decide

/-- After stage 7 there is no uppercase letter and no underscore. -/
theorem nt7_chars (v : List Char) :
    ∀ c ∈ nt7 v, isUpperC c = false ∧ c ≠ '_' := by
  intro c hc
  rw [nt7] at hc
  rcases foldWR_chars spellingTable _ c hc with h | ⟨pr, hpr, hm⟩
  rotate_left
  · exact spelling_dst_chars pr hpr c hm
  rw [nt6] at h
  constructor
  · rcases replaceAll_chars _ _ _ c h with h | h
    rotate_left
    · have : c = ' ' := by simpa using h
      subst this; decide
    rcases replaceAll_chars _ _ _ c h with h | h
    rotate_left
    · have : c = ' ' := by simpa using h
      subst this; decide
    rcases replaceAll_chars _ _ _ c h with h | h
    rotate_left
    · have : c = ' ' := by simpa using h
      subst this; decide
    rcases replaceAll_chars _ _ _ c h with h | h
    rotate_left
    · have hm : c = ' ' ∨ c = 'a' ∨ c = 'n' ∨ c = 'd' ∨ c = ' ' := by
        simpa using h
      rcases hm with rfl | rfl | rfl | rfl | rfl <;> decide
    rcases stripAccents_chars _ c h with h | ⟨p, hp, rfl⟩
    rotate_left
    · exact (accent_chars p hp).1
    rcases List.mem_map.mp h with ⟨d, _, rfl⟩
    exact pyLower_not_upper d
  · intro he
    subst he
    rcases replaceAll_chars _ _ _ _ h with h2 | h2
    rotate_left
    · simp at h2
    exact replaceAll_elim '_' " ".data _ (by decide) h2

theorem nt8_chars (v : List Char) :
    ∀ c ∈ nt8 v, isAz09 c = true ∨ isWsC c = true := by
  intro c hc
  rw [nt8] at hc
  rcases List.mem_map.mp hc with ⟨d, _, rfl⟩
  by_cases h : (isAz09 d || isWsC d) = true
  · rw [if_pos h]
    simpa using h
  · rw [if_neg h]
    right
    decide

theorem norm_chars (v : List Char) :
    ∀ c ∈ normalize_text (some v), isAz09 c = true ∨ c = ' ' := by
  intro c hc
  rw [norm_eq, collapseWs] at hc
  rcases joinSpace_chars _ c hc with h | ⟨w, hw, hcw⟩
  · exact Or.inr h
  have hs := splitRuns_sound _ _ w hw
  have hnw : isWsC c = false := by simpa using (hs.2 c hcw).1
  rcases nt8_chars v c (hs.2 c hcw).2 with h | h
  · exact Or.inl h
  · rw [h] at hnw; cases hnw

/-- The words of the normalised string are the words of stage 6 with the
spelling substitutions applied. -/
theorem norm_words_eq (v : List Char) :
    pyWords (nt8 v) = (splitRuns isWordC (nt6 v)).map
      (fun w => spellingTable.foldl (fun x pr => substW pr x) w) := by
  rw [pyWords, nt8]
  rw [splitRuns_map (fun c => !isWsC c) isAz09
    (fun c => if isAz09 c || isWsC c then c else ' ') (nt7 v) ?_]
  · rw [splitRuns_congr isAz09 isWordC (nt7 v) ?_]
    · rw [nt7]
      exact foldWR_runs spellingTable spelling_facts (nt6 v)
    · intro c hc
      exact (word_eq_az09 c (nt7_chars v c hc).1 (nt7_chars v c hc).2).symm
  · intro c hc
    dsimp only
    by_cases ha : isAz09 c = true
    · rw [if_pos (by simp [ha]), ha]
      refine ⟨?_, fun _ => rfl⟩
      rw [az09_not_ws c ha]
      rfl
    · have ha2 : isAz09 c = false := by simpa using ha
      rw [ha2]
      by_cases hw : isWsC c = true
      · rw [if_pos (by simp [hw]), hw]
        exact ⟨rfl, fun h => by cases h⟩
      · have hw2 : isWsC c = false := by simpa using hw
        rw [if_neg (by simp [ha2, hw2])]
        exact ⟨by decide, fun h => by cases h⟩

/-- No spelling source survives as a word of the normalised string. -/
theorem src_not_word (v : List Char) :
    ∀ pr ∈ spellingTable, pr.1 ∉ pyWords (normalize_text (some v)) := by
  intro pr hpr hmem
  rw [norm_eq, collapseWs, pyWords_joinSpace _ (pyWords_good _)] at hmem
  rw [norm_words_eq] at hmem
  rcases List.mem_map.mp hmem with ⟨w, _, hw⟩
  exact subst_avoid spellingTable spelling_disjoint w pr hpr hw

theorem norm_idem (v : List Char) :
    normalize_text (some (normalize_text (some v))) = normalize_text (some v) := by
  have hch := norm_chars v
  have hnm : ∀ x : Char, isAz09 x = false → x ≠ ' ' →
      x ∉ normalize_text (some v) := by
    intro x h1 h2 hmem
    rcases hch x hmem with h | h
    · rw [h1] at h; cases h
    · exact h2 h
  have h0 : stripWs (normalize_text (some v)) = normalize_text (some v) := by
    rw [norm_eq, collapseWs]
    exact stripWs_joinSpace _ (pyWords_good _)
  have h1 : (normalize_text (some v)).map pyLower = normalize_text (some v) := by
    refine map_id_of_fix pyLower _ ?_
    intro c hc
    exact pyLower_fix c (az09_space_not_upper c (hch c hc))
  have h2 : stripAccents (normalize_text (some v)) = normalize_text (some v) := by
    refine stripAccents_ascii _ ?_
    intro c hc
    exact Nat.lt_of_lt_of_le (az09_lt_128 c (hch c hc)) (by omega)
  have h3 : replaceAll "&".data " and ".data (normalize_text (some v))
      = normalize_text (some v) :=
    replaceAll_id_of_head_not_mem '&' [] _ _ (hnm '&' (by decide) (by decide))
  have h4 : replaceAll "/".data " ".data (normalize_text (some v))
      = normalize_text (some v) :=
    replaceAll_id_of_head_not_mem '/' [] _ _ (hnm '/' (by decide) (by decide))
  have h5 : replaceAll "_".data " ".data (normalize_text (some v))
      = normalize_text (some v) :=
    replaceAll_id_of_head_not_mem '_' [] _ _ (hnm '_' (by decide) (by decide))
  have h6 : replaceAll "-".data " ".data (normalize_text (some v))
      = normalize_text (some v) :=
    replaceAll_id_of_head_not_mem '-' [] _ _ (hnm '-' (by decide) (by decide))
  have hrw : splitRuns isWordC (normalize_text (some v))
      = pyWords (normalize_text (some v)) := by
    rw [pyWords]
    refine splitRuns_congr _ _ _ ?_
    intro c hc
    exact az09_word_eq_not_ws c (hch c hc)
  have h7 : spellingTable.foldl (fun t pr => wordReplace pr.1 pr.2 t)
      (normalize_text (some v)) = normalize_text (some v) := by
    refine foldWR_id spellingTable _ ?_
    intro pr hpr
    rcases spelling_facts pr hpr with ⟨hp1, hp2, _, _⟩
    refine wordReplace_id pr.1 pr.2 _ hp1 hp2 hch ?_
    rw [hrw]
    exact src_not_word v pr hpr
  have h8 : (normalize_text (some v)).map
      (fun c => if isAz09 c || isWsC c then c else ' ') = normalize_text (some v) := by
    refine map_id_of_fix _ _ ?_
    intro c hc
    rcases hch c hc with h | rfl
    · rw [if_pos (by simp [h])]
    · rw [if_pos (by decide)]
  have h9 : collapseWs (normalize_text (some v)) = normalize_text (some v) := by
    rw [norm_eq]
    rw [show collapseWs (nt8 v) = joinSpace (pyWords (nt8 v)) from rfl]
    exact collapseWs_of_good _ (pyWords_good _)
  rw [norm_eq (normalize_text (some v))]
  rw [nt8]
  rw [nt7]
  rw [nt6]
  rw [h0]
  rw [h1]
  rw [h2]
  rw [h3]
  rw [h4]
  rw [h5]
  rw [h6]
  rw [h7]
  rw [h8]
  rw [h9]

end OmToFsqMap

/-- C8: text normalisation is idempotent — normalising an already
normalised string returns it unchanged — and maps empty or null input to
the empty string, in both the replacement-table variant of
category_mapper.py and the accent-stripping, spelling-canonicalising
variant of om_to_fsq_map.py. -/
theorem claim_C8 :
    (∀ x : List Char,
      CategoryMapper.normalize_text (some (CategoryMapper.normalize_text (some x)))
        = CategoryMapper.normalize_text (some x)) ∧
    CategoryMapper.normalize_text none = [] ∧
    CategoryMapper.normalize_text (some "".data) = [] ∧
    (∀ x : List Char,
      OmToFsqMap.normalize_text (some (OmToFsqMap.normalize_text (some x)))
        = OmToFsqMap.normalize_text (some x)) ∧
    OmToFsqMap.normalize_text none = [] ∧
    OmToFsqMap.normalize_text (some "".data) = [] :=
  ⟨fun x => CategoryMapper.norm_core_idem x, rfl, rfl,
    fun x => OmToFsqMap.norm_idem x, rfl, rfl⟩
